import Mathlib

/-!
# FigmaRobloxForge — verification of the Design-Tree Compiler core

Shallow embedding, in Lean 4, of the parts of the FigmaRobloxForge pipeline
that the specification's claims are about:

* the node classification engine (`classifyNode`, figma-forge-assemble.ts),
* the geometry and constraint translator (`emitGeometry`, figma-forge-assemble.ts),
* the corner-radius handling (`getEffectiveCornerRadius`, figma-forge-shared.ts,
  and the UICorner emission of `emitContainerNode`, figma-forge-assemble.ts),
* the asset resolution loop and its persistent image cache
  (`resolveImages` / `saveImageCache`, figma-forge-animations.ts),
* the extraction-side layer classification and raster queue
  (`serializeNode` / `buildExtractionScript`, figma-forge-extract.ts),
* the text-stroke deduplication pass (`deduplicateTextStrokes`,
  figma-forge-extract.ts),
* the incremental diff engine (`computeDiff` / `collectNodesWithHashes`).

JavaScript numbers are modelled as `ℚ` (all arithmetic in the verified paths
is exact on small rationals), JS arrays as `List`, JS objects / `Map`s as
association lists in insertion order, and thrown exceptions as `Except`.

The file is organised as definitions first (the embedding), then theorems.
-/

namespace FigmaForge

/-! ## Data model (figma-forge-ir.ts) -/

/-- The closed set of node type-tags that the pipeline distinguishes. -/
inductive NodeType
  | TEXT | FRAME | RECTANGLE | ELLIPSE | GROUP | COMPONENT | INSTANCE | VECTOR
  deriving DecidableEq, Repr

/-- Fill paint variants (`fill.type` strings in the IR). -/
inductive FillType
  | SOLID | GRADIENT_LINEAR | GRADIENT_RADIAL | GRADIENT_ANGULAR | GRADIENT_DIAMOND | IMAGE
  deriving DecidableEq, Repr

/-- In the JS source the gradient check is `f.type?.startsWith('GRADIENT_')`. -/
def FillType.isGradient : FillType → Bool
  | .GRADIENT_LINEAR | .GRADIENT_RADIAL | .GRADIENT_ANGULAR | .GRADIENT_DIAMOND => true
  | _ => false

/-- RGBA color as stored in the IR. -/
structure FigmaColor where
  r : ℚ
  g : ℚ
  b : ℚ
  a : ℚ
  deriving DecidableEq, Repr

/-- One entry of a node's `fills` array. -/
structure Fill where
  ftype : FillType
  visible : Bool
  opacity : ℚ
  color : Option FigmaColor
  imageHash : Option String
  deriving DecidableEq, Repr

/-- One entry of a node's `strokes` array. -/
structure Stroke where
  stype : FillType
  visible : Bool
  color : Option FigmaColor
  deriving DecidableEq, Repr

/-- Effect variants. -/
inductive EffectType
  | DROP_SHADOW | INNER_SHADOW | LAYER_BLUR | BACKGROUND_BLUR
  deriving DecidableEq, Repr

/-- One entry of a node's `effects` array. -/
structure Effect where
  etype : EffectType
  visible : Bool
  radius : ℚ
  deriving DecidableEq, Repr

/-- `cornerRadius` is a uniform scalar or a per-corner 4-tuple
`[topLeft, topRight, bottomRight, bottomLeft]`. -/
inductive CornerRadius
  | uniform (r : ℚ)
  | perCorner (tl tr br bl : ℚ)
  deriving DecidableEq, Repr

/-- `layoutSizingHorizontal` / `layoutSizingVertical` values. -/
inductive Sizing
  | FIXED | HUG | FILL
  deriving DecidableEq, Repr

/-- Text style payload of a TEXT node (the fields the verified passes read). -/
structure TextStyle where
  fontSize : ℚ
  fontFamily : String
  deriving DecidableEq, Repr

/-- Per-node data of an IR node (`FigmaForgeNode`), children kept separate.
Engine-computed annotations (underscore-prefixed in the source) are included:
`isFlattened` is `_isFlattened`, `isStrokeDuplicate` is `_isStrokeDuplicate`,
and so on; JS `undefined` becomes `none` / `false`. -/
structure NData where
  id : String
  name : String
  ntype : NodeType
  visible : Bool
  x : ℚ
  y : ℚ
  width : ℚ
  height : ℚ
  cornerRadius : CornerRadius
  fills : List Fill
  strokes : List Stroke
  strokeWeight : ℚ
  effects : List Effect
  opacity : ℚ
  characters : Option String
  textStyle : Option TextStyle
  layoutSizingHorizontal : Option Sizing
  layoutSizingVertical : Option Sizing
  isFlattened : Bool
  isStrokeDuplicate : Bool
  inferredStrokeThickness : Option ℚ
  inferredStrokeColor : Option FigmaColor
  rasterizedImageHash : Option String
  resolvedImageId : Option String
  solidFill : Option FigmaColor
  deriving DecidableEq, Repr

/-- A default node datum; concrete test nodes override the relevant fields. -/
def NData.default : NData where
  id := ""
  name := ""
  ntype := .FRAME
  visible := true
  x := 0
  y := 0
  width := 0
  height := 0
  cornerRadius := .uniform 0
  fills := []
  strokes := []
  strokeWeight := 0
  effects := []
  opacity := 1
  characters := none
  textStyle := none
  layoutSizingHorizontal := none
  layoutSizingVertical := none
  isFlattened := false
  isStrokeDuplicate := false
  inferredStrokeThickness := none
  inferredStrokeColor := none
  rasterizedImageHash := none
  resolvedImageId := none
  solidFill := none

/-- IR node tree (`FigmaForgeNode`): node data plus ordered children. -/
inductive FNode
  | mk (data : NData) (children : List FNode)
  deriving Repr

/-- The data record of a node. -/
def FNode.data : FNode → NData
  | .mk d _ => d

/-- The ordered children of a node. -/
def FNode.children : FNode → List FNode
  | .mk _ cs => cs

/-- Map a pure per-node data function over every node of a tree (the shape of
all whole-tree updates in the source: each node is updated locally and the
walk recurses into all children). -/
def treeMapData (f : NData → NData) : FNode → FNode
  | .mk d cs => .mk (f d) (cs.attach.map (fun c => treeMapData f c.1))
decreasing_by
  have h1 := List.sizeOf_lt_of_mem c.2
  simp only [FNode.mk.sizeOf_spec]
  omega

/-! ## Classification engine (`classifyNode`, figma-forge-assemble.ts lines 42–60)

```ts
function classifyNode(node, config): 'png' | 'text_dynamic' | 'container' {
  // ALL text → TextLabel FIRST — takes priority over _isFlattened.
  if (node.type === 'TEXT') return 'text_dynamic';
  // Explicitly flattened nodes → always PNG
  if (node._isFlattened) return 'png';
  // Leaf nodes (no children): always PNG
  if (!node.children || node.children.length === 0) return 'png';
  // ANY frame with children → container (preserve hierarchy)
  return 'container';
}
```
-/

/-- The three output strategies. `png` is the RASTER strategy of the spec,
`text_dynamic` is TEXT, `container` is CONTAINER. -/
inductive Strategy
  | png | text_dynamic | container
  deriving DecidableEq, Repr

/-- The compiler's runtime configuration object; `classifyNode` receives it but
does not read it. -/
structure RuntimeConfig where
  dynamicPrefix : String
  deriving Repr

/-- Shallow embedding of `classifyNode` (figma-forge-assemble.ts 42–60). -/
def classifyNode (node : FNode) (_config : RuntimeConfig) : Strategy :=
  if node.data.ntype = .TEXT then .text_dynamic
  else if node.data.isFlattened then .png
  else if node.children.isEmpty then .png
  else .container

/-- A flattened TEXT node: explicitly tagged flatten (`_isFlattened = true`)
but with type-tag TEXT. -/
def flattenedTextNode : FNode :=
  FNode.mk
    { NData.default with
      id := "1:1", name := "Title [Flatten]", ntype := .TEXT,
      characters := some "Hello", isFlattened := true } []

/-- A configuration value for concrete runs. -/
def demoConfig : RuntimeConfig := { dynamicPrefix := "$" }

/-- A flatten-tagged FRAME node with children, for the C1 witness. -/
def flattenedFrameNode : FNode :=
  FNode.mk
    { NData.default with
      id := "9:9", ntype := .FRAME, isFlattened := true } [flattenedTextNode]

/-! ## Geometry and constraint translator (`emitGeometry`,
figma-forge-assemble.ts lines 101–181)

The function renders `UDim2` position/size values and an optional
`AnchorPoint` into XML; the embedding models the numeric payload of the
emitted XML. -/

/-- A `UDim2` value: X scale, X offset, Y scale, Y offset. -/
@[ext]
structure UDim2 where
  xs : ℚ
  xo : ℚ
  ys : ℚ
  yo : ℚ
  deriving DecidableEq, Repr

/-- `Math.round` of JavaScript: round half toward positive infinity. -/
def jsRound (q : ℚ) : ℤ := ⌊q + 1/2⌋

/-- Per-axis constraint kinds (`node.constraints.horizontal` / `.vertical`). -/
inductive ConstraintKind
  | MIN | MAX | CENTER | STRETCH | SCALE
  deriving DecidableEq, Repr

/-- The `constraints` record of a node; `none` means the field is absent and
the code falls back to `'MIN'`. -/
structure Constraints where
  horizontal : ConstraintKind
  vertical : ConstraintKind
  deriving DecidableEq, Repr

/-- Geometry payload emitted by `emitGeometry`: the Position and Size `UDim2`
values and the optional `AnchorPoint` vector. -/
structure GeometryOut where
  position : UDim2
  size : UDim2
  anchor : Option (ℚ × ℚ)
  deriving DecidableEq, Repr

/-- Shallow embedding of `emitGeometry` (figma-forge-assemble.ts 101–181).
`constraints` stands for `node.constraints` (absent ⇒ both axes `MIN`);
all other inputs mirror the function's parameters. -/
def emitGeometry (node : NData) (constraints : Option Constraints)
    (isRoot : Bool) (parentHasAutoLayout : Bool) (pw ph : ℚ)
    (defaultSizeXOff defaultSizeYOff : ℚ) : GeometryOut :=
  -- If in auto-layout, UIListLayout controls position, size uses layoutSizing
  if parentHasAutoLayout ∧ ¬ isRoot then
    let sxs : ℚ := if node.layoutSizingHorizontal = some .FILL then 1 else 0
    let sys : ℚ := if node.layoutSizingVertical = some .FILL then 1 else 0
    let sxo : ℚ := if sxs > 0 then 0 else defaultSizeXOff
    let syo : ℚ := if sys > 0 then 0 else defaultSizeYOff
    { position := ⟨0, 0, 0, 0⟩, size := ⟨sxs, sxo, sys, syo⟩, anchor := none }
  else if isRoot then
    { position := ⟨1/2, 0, 1/2, 0⟩,
      size := ⟨0, defaultSizeXOff, 0, defaultSizeYOff⟩,
      anchor := some (1/2, 1/2) }
  else
    let hc := (constraints.map Constraints.horizontal).getD .MIN
    let vc := (constraints.map Constraints.vertical).getD .MIN
    let base : (ℚ × ℚ × ℚ × ℚ × ℚ) × (ℚ × ℚ × ℚ × ℚ × ℚ) :=
      ((0, jsRound node.x, 0, defaultSizeXOff, 0),
       (0, jsRound node.y, 0, defaultSizeYOff, 0))
    let hx : ℚ × ℚ × ℚ × ℚ × ℚ :=
      match hc with
      | .MAX => (1, jsRound (node.x - pw), 0, defaultSizeXOff, 1)
      | .CENTER => (1/2, jsRound (node.x + defaultSizeXOff / 2 - pw / 2), 0, defaultSizeXOff, 1/2)
      | .STRETCH => (0, jsRound node.x, 1, jsRound (defaultSizeXOff - pw), 0)
      | .SCALE => (if pw > 0 then node.x / pw else 0, 0,
                   if pw > 0 then defaultSizeXOff / pw else 0, 0, 0)
      | .MIN => base.1
    let vx : ℚ × ℚ × ℚ × ℚ × ℚ :=
      match vc with
      | .MAX => (1, jsRound (node.y - ph), 0, defaultSizeYOff, 1)
      | .CENTER => (1/2, jsRound (node.y + defaultSizeYOff / 2 - ph / 2), 0, defaultSizeYOff, 1/2)
      | .STRETCH => (0, jsRound node.y, 1, jsRound (defaultSizeYOff - ph), 0)
      | .SCALE => (if ph > 0 then node.y / ph else 0, 0,
                   if ph > 0 then defaultSizeYOff / ph else 0, 0, 0)
      | .MIN => base.2
    let ax := hx.2.2.2.2
    let ay := vx.2.2.2.2
    { position := ⟨hx.1, hx.2.1, vx.1, vx.2.1⟩,
      size := ⟨hx.2.2.1, hx.2.2.2.1, vx.2.2.1, vx.2.2.2.1⟩,
      anchor := if ax ≠ 0 ∨ ay ≠ 0 then some (ax, ay) else none }

/-- A concrete auto-layout child: horizontal sizing FILL, vertical HUG,
width 120, height 40.5. -/
def demoAutoChild : NData :=
  { NData.default with
    width := 120, height := 40.5,
    layoutSizingHorizontal := some .FILL, layoutSizingVertical := some .HUG }

/-! ## Corner radius (`getEffectiveCornerRadius`, figma-forge-shared.ts 424–440,
and the UICorner emission of `emitContainerNode`, figma-forge-assemble.ts 478–491)

```ts
export function getEffectiveCornerRadius(node) {
  if (isEllipse(node)) return { isFullCircle: true, radiusPx: 0 };
  if (Array.isArray(node.cornerRadius)) {
    const [tl, tr, br, bl] = node.cornerRadius;
    ... console.warn(...using max...) ...
    return { isFullCircle: false, radiusPx: Math.max(tl, tr, br, bl) };
  }
  return { isFullCircle: false, radiusPx: node.cornerRadius };
}
```

```ts
// emitContainerNode, UICorner emission:
const cr = typeof node.cornerRadius === 'number' ? node.cornerRadius
  : (Array.isArray(node.cornerRadius) ? node.cornerRadius[0] : 0);
if (cr > 0) { ... isCircle = cr >= Math.min(w, h) / 2;
  emit <UDim CornerRadius> S=0.5 O=0 (circle) or S=0 O=Math.round(cr) ... }
```
-/

/-- Result of `getEffectiveCornerRadius`. -/
structure EffectiveCornerRadius where
  isFullCircle : Bool
  radiusPx : ℚ
  deriving DecidableEq, Repr

/-- `isEllipse` (figma-forge-shared.ts 371–373). -/
def isEllipse (node : NData) : Bool := node.ntype = .ELLIPSE

/-- Shallow embedding of `getEffectiveCornerRadius`
(figma-forge-shared.ts 424–440); the non-uniform warning is logged, not part
of the returned value. -/
def getEffectiveCornerRadius (node : NData) : EffectiveCornerRadius :=
  if isEllipse node then ⟨true, 0⟩
  else
    match node.cornerRadius with
    | .perCorner tl tr br bl => ⟨false, max (max (max tl tr) br) bl⟩
    | .uniform r => ⟨false, r⟩

/-- The scalar `cr` computed by `emitContainerNode` for its UICorner child
(figma-forge-assemble.ts 479–480): the uniform value, or the FIRST entry
(top-left) of a per-corner array. -/
def containerCornerScalar (node : NData) : ℚ :=
  match node.cornerRadius with
  | .uniform r => r
  | .perCorner tl _ _ _ => tl

/-- The emitted `UICorner.CornerRadius` UDim of a container: `none` when no
UICorner child is emitted (`cr ≤ 0`), otherwise scale/offset per the
full-circle test (figma-forge-assemble.ts 481–491). -/
def containerUICorner (node : NData) : Option (ℚ × ℤ) :=
  let cr := containerCornerScalar node
  if cr > 0 then
    if cr ≥ min node.width node.height / 2 then some (1/2, 0)
    else some (0, jsRound cr)
  else none

/-- A container with a non-uniform per-corner radius `[10, 40, 0, 0]`. -/
def unevenCornerNode : NData :=
  { NData.default with
    id := "2:7", name := "Card", ntype := .FRAME,
    width := 200, height := 100, cornerRadius := .perCorner 10 40 0 0 }

/-! ## Asset resolution and cache (`resolveImages`, figma-forge-animations.ts
lines 673–745; `saveImageCache` lines 466–468)

The persistent image cache file is `{ entries: Record<hash, { assetId, ... }> }`;
entries are modelled as an association list from content hash to asset id in
insertion order (the `uploadedAt` timestamp plays no role in any claim).
`uploadToRoblox` — the only network call — is abstracted as an oracle
`upload : String → Option String` giving the asset id for a hash, `none`
meaning the upload (or its completion polling) throws.  The observable
behaviour of a run is its event trace: cache hits, upload calls, and the
write of the persistent cache file (`saveImageCache`). -/

/-- Lookup in a JS object / `Map` modelled as an association list. -/
def objGet {α : Type} : List (String × α) → String → Option α
  | [], _ => none
  | (k', v') :: rest, k => if k' = k then some v' else objGet rest k

/-- Property assignment on a JS object / `Map` modelled as an association
list: overwrite in place, or append a new entry. -/
def objSet {α : Type} : List (String × α) → String → α → List (String × α)
  | [], k, v => [(k, v)]
  | (k', v') :: rest, k, v =>
    if k' = k then (k, v) :: rest else (k', v') :: objSet rest k v

/-- The entries of the persistent image cache: content hash → asset id. -/
abbrev ImageCache := List (String × String)

/-- Observable events of a resolution run. -/
inductive UpEvent
  | cacheHit (h : String)
  | upload (h : String)
  | saveCache
  deriving DecidableEq, Repr

/-- Fatal errors thrown by `resolveImages`. -/
inductive ResolveErr
  | missingData (h : String)
  | uploadFailed (h : String)
  deriving DecidableEq, Repr

/-- Per-node update performed by `applyResolvedId`
(figma-forge-animations.ts 605–616): if the node has a visible IMAGE fill
with the hash, or its `_rasterizedImageHash` equals the hash, set
`_resolvedImageId` to the rbxassetid url. -/
def applyResolvedData (imageHash assetId : String) (d : NData) : NData :=
  if (d.fills.any
        (fun f => f.ftype = .IMAGE ∧ f.visible = true ∧ f.imageHash = some imageHash)) = true
      ∨ d.rasterizedImageHash = some imageHash then
    { d with resolvedImageId := some ("rbxassetid://" ++ assetId) }
  else d

/-- `applyResolvedId` walks the whole tree applying the per-node update. -/
def applyResolvedId (node : FNode) (imageHash assetId : String) : FNode :=
  treeMapData (applyResolvedData imageHash assetId) node

/-- `raster_52_480 → 52:480`: recover the node id encoded in a `raster_*`
key (figma-forge-animations.ts 632–639); `none` when the key does not start
with the prefix or has no underscore after it. -/
def rasterKeyNodeId (k : String) : Option String :=
  if "raster_".isPrefixOf k then
    let suffix := k.toList.drop 7
    let pre := suffix.takeWhile (fun c => c ≠ '_')
    match suffix.dropWhile (fun c => c ≠ '_') with
    | [] => none
    | _ :: rest => some (String.mk (pre ++ ':' :: rest))
  else none

/-- The `nodeId → rasterKey` map built by `backfillRasterHashes`
(figma-forge-animations.ts 629–640), in insertion order. -/
def buildRasterKeyMap (unresolvedImages : List String) : List (String × String) :=
  unresolvedImages.foldl
    (fun m k =>
      match rasterKeyNodeId k with
      | some nodeId => objSet m nodeId k
      | none => m) []

/-- Per-node update of `backfillRasterHashes` (figma-forge-animations.ts
645–653): patch `_rasterizedImageHash` when the id is truthy, mapped, and the
field is not already set. -/
def backfillData (m : List (String × String)) (d : NData) : NData :=
  if d.id ≠ "" ∧ (objGet m d.id).isSome ∧ d.rasterizedImageHash = none then
    { d with rasterizedImageHash := objGet m d.id }
  else d

/-- `backfillRasterHashes` (figma-forge-animations.ts 628–658). -/
def backfillRasterHashes (root : FNode) (unresolvedImages : List String) : FNode :=
  let m := buildRasterKeyMap unresolvedImages
  if m.isEmpty then root else treeMapData (backfillData m) root

/-- The main loop of `resolveImages` (figma-forge-animations.ts 693–738),
returning the event trace and either the fatal error or the final in-memory
cache and resolved tree.  Per iteration: cache hit resolves with no upload;
otherwise missing exported data is a fatal error; otherwise the upload oracle
is called, a failure is fatal, and on success the entry is added to the
in-memory cache.  `saveImageCache` runs once, after the loop — so the
`saveCache` event appears only on the success path, at the very end. -/
def resolveLoop (upload exported : String → Option String) :
    List String → ImageCache → FNode →
    List UpEvent × Except ResolveErr (ImageCache × FNode)
  | [], cache, root => ([.saveCache], .ok (cache, root))
  | h :: rest, cache, root =>
    match objGet cache h with
    | some assetId =>
      let r := resolveLoop upload exported rest cache (applyResolvedId root h assetId)
      (.cacheHit h :: r.1, r.2)
    | none =>
      match exported h with
      | none => ([], .error (.missingData h))
      | some _ =>
        match upload h with
        | none => ([.upload h], .error (.uploadFailed h))
        | some assetId =>
          let r := resolveLoop upload exported rest (objSet cache h assetId)
            (applyResolvedId root h assetId)
          (.upload h :: r.1, r.2)

/-- The manifest fields consumed by the resolution pipeline. -/
structure Manifest where
  root : FNode
  unresolvedImages : List String

/-- `resolveImages` (figma-forge-animations.ts 673–745): empty unresolved list
returns immediately (no cache load, no save); otherwise backfill raster
hashes, then run the loop against the loaded persistent cache `cache0`. -/
def resolveImages (upload exported : String → Option String)
    (cache0 : ImageCache) (m : Manifest) :
    List UpEvent × Except ResolveErr (ImageCache × FNode) :=
  if m.unresolvedImages.isEmpty then ([], .ok (cache0, m.root))
  else
    let root1 := backfillRasterHashes m.root m.unresolvedImages
    resolveLoop upload exported m.unresolvedImages cache0 root1

/-- Number of upload calls for a given content hash in an event trace. -/
def countUploads (evs : List UpEvent) (h : String) : Nat :=
  evs.countP (fun e => e = UpEvent.upload h)

/-- Composition of the per-node updates of a run: the `applyResolvedId` calls
for the (hash, assetId) pairs resolved so far, applied left to right. -/
def applyPairsData (ps : List (String × String)) (d : NData) : NData :=
  ps.foldl (fun d p => applyResolvedData p.1 p.2 d) d

/-- A manifest whose second hash has no exported data: the run uploads
`hash_a`, then aborts on `hash_b`. -/
def crashManifest : Manifest :=
  { root := FNode.mk NData.default [], unresolvedImages := ["hash_a", "hash_b"] }

/-- Exported images for `crashManifest`: only `hash_a` has data. -/
def crashExported : String → Option String :=
  fun h => if h = "hash_a" then some "PNGDATA" else none

/-- An upload oracle that always succeeds with asset id 42. -/
def alwaysUpload : String → Option String := fun _ => some "42"

/-- An exported-images map that never has data. -/
def noExported : String → Option String := fun _ => none

/-- A persistent cache holding an entry for `hash_a`. -/
def cacheWithA : ImageCache := [("hash_a", "77")]

/-- A manifest that asks for `hash_a` twice (two nodes with identical visual
content declare the same computed hash). -/
def doubleHashManifest : Manifest :=
  { root := FNode.mk NData.default [], unresolvedImages := ["hash_a", "hash_a"] }

/-! ## Extraction-side layer classification (`serializeNode`,
figma-forge-extract.ts lines 217–428, classification block 313–371, and the
rasterization phase of `buildExtractionScript`, lines 432–438)

The extraction script runs over raw Figma nodes.  The fields its
classification reads are modelled in `RawData`; `exportAsync` is present on
every scene node and is modelled as always available.  The `figma.mixed`
sentinel for `strokeWeight` is not modelled (weights are plain numbers). -/

/-- A raw Figma fill as the extraction script reads it:
`visible` is `f.visible !== false`. -/
structure RawFill where
  ftype : FillType
  visible : Bool
  opacity : Option ℚ
  color : Option FigmaColor
  imageHash : Option String
  deriving DecidableEq, Repr

/-- The raw-node fields consulted by the classification block. -/
structure RawData where
  id : String
  name : String
  ntype : NodeType
  fills : List RawFill
  strokes : Nat
  strokeWeight : ℚ
  deriving DecidableEq, Repr

/-- A raw Figma node tree. -/
inductive RawNode
  | mk (data : RawData) (children : List RawNode)
  deriving Repr

/-- The data record of a raw node. -/
def RawNode.data : RawNode → RawData
  | .mk d _ => d

/-- The children of a raw node. -/
def RawNode.children : RawNode → List RawNode
  | .mk _ cs => cs

/-- All nodes of a raw tree, the node itself first (pre-order). -/
def rawNodes : RawNode → List RawNode
  | .mk d cs => .mk d cs :: (cs.attach.map (fun c => rawNodes c.1)).flatten
decreasing_by
  have h1 := List.sizeOf_lt_of_mem c.2
  simp only [RawNode.mk.sizeOf_spec]
  omega

/-- Substring containment on character lists: the pattern is a prefix of some
suffix of the haystack. -/
def listIncludes : List Char → List Char → Bool
  | [], pat => pat.isEmpty
  | c :: rest, pat => pat.isPrefixOf (c :: rest) || listIncludes rest pat

/-- `String.prototype.includes`. -/
def strIncludes (s pat : String) : Bool := listIncludes s.toList pat.toList

/-- `isFlattenTag` (figma-forge-extract.ts 322): the node name carries one of
the flatten naming-convention tags. -/
def isFlattenTagName (name : String) : Bool :=
  strIncludes name "[Flatten]" || strIncludes name "[Raster]" || strIncludes name "[Flattened]"

/-- Outcome of the classification block of `serializeNode` for one node. -/
structure ExtractClass where
  solidFill : Option FigmaColor
  solidFillOpacity : Option ℚ
  isFlattened : Bool
  isDynamic : Bool
  isHybrid : Bool
  queued : Bool
  deriving DecidableEq, Repr

/-- Shallow embedding of the classification block of `serializeNode`
(figma-forge-extract.ts 313–371).  `queued` is true when the node is pushed
onto `rasterQueue`. -/
def extractClassify (d : RawData) (hasChildren : Bool) : ExtractClass :=
  let isFlattenTag := isFlattenTagName d.name
  let visibleFills := d.fills.filter (fun f => f.visible)
  let hasVisibleFill : Bool := ¬ visibleFills.isEmpty
  let hasVisibleStroke : Bool := 0 < d.strokes ∧ 0 < d.strokeWeight
  let solidOpt : Bool :=
    visibleFills.length = 1 ∧
    (visibleFills.head?.map RawFill.ftype) = some .SOLID ∧
    hasVisibleStroke = false ∧ d.ntype ≠ .TEXT ∧ isFlattenTag = false
  let solidFill := if solidOpt then visibleFills.head?.bind RawFill.color else none
  let solidFillOpacity :=
    if solidOpt then some (((visibleFills.head?.bind RawFill.opacity)).getD 1) else none
  let hasVisualBackground := (hasVisibleFill || hasVisibleStroke) && !solidOpt
  if isFlattenTag then
    { solidFill := solidFill, solidFillOpacity := solidFillOpacity,
      isFlattened := true, isDynamic := false, isHybrid := false, queued := true }
  else if d.ntype = .TEXT then
    { solidFill := solidFill, solidFillOpacity := solidFillOpacity,
      isFlattened := false, isDynamic := true, isHybrid := false, queued := false }
  else if hasChildren then
    { solidFill := solidFill, solidFillOpacity := solidFillOpacity,
      isFlattened := false, isDynamic := false,
      isHybrid := hasVisualBackground, queued := hasVisualBackground }
  else
    { solidFill := solidFill, solidFillOpacity := solidFillOpacity,
      isFlattened := true, isDynamic := false, isHybrid := false, queued := true }

/-- `'raster_' + figmaNode.id.replace(/:/g, '_')`
(figma-forge-extract.ts 435). -/
def rasterHashOf (id : String) : String :=
  "raster_" ++ String.mk (id.toList.map (fun c => if c = ':' then '_' else c))

/-- The image-hash pushes of `serializeFill` (figma-forge-extract.ts 111–119):
for each IMAGE fill with a truthy hash not yet seen, append it.  The running
list doubles as the seen-set (the source keeps a Set alongside the array with
the same contents). -/
def collectImageHashes (fills : List RawFill) (imgs : List String) : List String :=
  fills.foldl
    (fun acc f =>
      if f.ftype = .IMAGE then
        match f.imageHash with
        | some hh => if hh ≠ "" ∧ hh ∉ acc then acc ++ [hh] else acc
        | none => acc
      else acc) imgs

mutual

/-- The traversal of `serializeNode` restricted to its observable effect on
the image pipeline: accumulate image-fill hashes (in traversal order,
deduplicated) and the raster queue hashes (in queue order).  Children are
processed only when the node is not flattened
(figma-forge-extract.ts 378–389). -/
def extractWalk : RawNode → List String → List String × List String
  | .mk d cs, imgs =>
    let imgs1 := collectImageHashes d.fills imgs
    let cls := extractClassify d (!cs.isEmpty)
    let rasters0 : List String := if cls.queued then [rasterHashOf d.id] else []
    if cls.isFlattened then (imgs1, rasters0)
    else
      let r := extractWalkList cs imgs1
      (r.1, rasters0 ++ r.2)
termination_by n _ => sizeOf n
decreasing_by
  simp only [RawNode.mk.sizeOf_spec]
  omega

/-- Traversal of a child list, threading the image-hash accumulator. -/
def extractWalkList : List RawNode → List String → List String × List String
  | [], imgs => (imgs, [])
  | c :: rest, imgs =>
    let r1 := extractWalk c imgs
    let r2 := extractWalkList rest r1.1
    (r2.1, r1.2 ++ r2.2)
termination_by l _ => sizeOf l
decreasing_by
  all_goals simp only [List.cons.sizeOf_spec]
  all_goals omega

end

/-- The manifest's `unresolvedImages` list produced by the extraction script:
image-fill hashes pushed during serialization, then the raster hashes
assigned in phase 1 of the rasterization loop
(figma-forge-extract.ts 432–438, 491). -/
def unresolvedImagesOf (root : RawNode) : List String :=
  (extractWalk root []).1 ++ (extractWalk root []).2

/-- A leaf with exactly one visible solid fill, no stroke, no flatten tag. -/
def solidLeaf : RawNode :=
  RawNode.mk
    { id := "5:1", name := "bg", ntype := .RECTANGLE,
      fills := [{ ftype := .SOLID, visible := true, opacity := some 1,
                  color := some ⟨1, 0, 0, 1⟩, imageHash := none }],
      strokes := 0, strokeWeight := 0 } []

/-- A container whose only child is `solidLeaf`. -/
def solidLeafRoot : RawNode :=
  RawNode.mk
    { id := "5:0", name := "Root", ntype := .FRAME, fills := [],
      strokes := 0, strokeWeight := 0 } [solidLeaf]

/-- A container with children carrying the same single solid fill paint as
`solidLeaf`. -/
def solidContainer : RawNode :=
  RawNode.mk
    { id := "6:0", name := "Panel", ntype := .FRAME,
      fills := [{ ftype := .SOLID, visible := true, opacity := some 1,
                  color := some ⟨1, 0, 0, 1⟩, imageHash := none }],
      strokes := 0, strokeWeight := 0 } [solidLeaf]

/-! ## Incremental diff engine (`computeDiff`, diff module lines 86–162;
`collectNodesWithHashes` lines 219–230; `collectAllNodeIds` lines 209–217)

The per-node structural fingerprint `computeNodeHash` is an MD5 digest of a
canonical JSON of visually-relevant fields; the digest itself is abstracted
as a parameter `hashFn : FNode → String` — every claim about the diff speaks
only of fingerprints matching or differing.  The previous manifest is
`none` when reading or parsing the snapshot file throws. -/

/-- One entry of the previous-manifest snapshot. -/
structure PreviousManifestEntry where
  nodeId : String
  name : String
  hash : String
  assetId : String
  width : ℚ
  height : ℚ
  deriving DecidableEq, Repr

/-- The previous-manifest snapshot: `entries` is a JS `Record` keyed by node
id, modelled in insertion order. -/
structure PreviousManifest where
  entries : List (String × PreviousManifestEntry)
  deriving DecidableEq, Repr

/-- The `stats` block of a diff result. -/
structure DiffStats where
  totalCurrent : Nat
  totalPrevious : Nat
  changedCount : Nat
  unchangedCount : Nat
  addedCount : Nat
  removedCount : Nat
  savedUploads : Nat
  deriving DecidableEq, Repr

/-- `DiffManifest` (diff module lines 20–41). -/
structure DiffManifest where
  changed : List String
  unchanged : List String
  added : List String
  removed : List String
  reuseMap : List (String × String)
  stats : DiffStats
  deriving DecidableEq, Repr

/-- `collectAllNodeIds` (diff module 209–217): every node id, pre-order. -/
def collectAllNodeIds : FNode → List String
  | .mk d cs => d.id :: (cs.attach.map (fun c => collectAllNodeIds c.1)).flatten
decreasing_by
  have h1 := List.sizeOf_lt_of_mem c.2
  simp only [FNode.mk.sizeOf_spec]
  omega

/-- All nodes of a tree, the node itself first (pre-order). -/
def treeNodes : FNode → List FNode
  | .mk d cs => .mk d cs :: (cs.attach.map (fun c => treeNodes c.1)).flatten
decreasing_by
  have h1 := List.sizeOf_lt_of_mem c.2
  simp only [FNode.mk.sizeOf_spec]
  omega

/-- The ids reachable through visible nodes only: the domain that
`collectNodesWithHashes` can ever record (it returns at an invisible node
without recursing). -/
def visibleIds : FNode → List String
  | .mk d cs =>
    if d.visible = false then []
    else d.id :: (cs.attach.map (fun c => visibleIds c.1)).flatten
decreasing_by
  have h1 := List.sizeOf_lt_of_mem c.2
  simp only [FNode.mk.sizeOf_spec]
  omega

mutual

/-- `collectNodesWithHashes` (diff module 219–230): a `Map` from node id to
structural hash, in traversal order; invisible nodes stop the walk for their
whole subtree. -/
def collectNodesWithHashes (hashFn : FNode → String) :
    FNode → List (String × String) → List (String × String)
  | .mk d cs, acc =>
    if d.visible = false then acc
    else collectNodesListWithHashes hashFn cs (objSet acc d.id (hashFn (.mk d cs)))
termination_by n _ => sizeOf n
decreasing_by
  simp only [FNode.mk.sizeOf_spec]
  omega

/-- Child-list traversal of `collectNodesWithHashes`. -/
def collectNodesListWithHashes (hashFn : FNode → String) :
    List FNode → List (String × String) → List (String × String)
  | [], acc => acc
  | c :: rest, acc =>
    collectNodesListWithHashes hashFn rest (collectNodesWithHashes hashFn c acc)
termination_by l _ => sizeOf l
decreasing_by
  all_goals simp only [List.cons.sizeOf_spec]
  all_goals omega

end

/-- Accumulator of the classification loop of `computeDiff`. -/
structure DiffAcc where
  changed : List String
  unchanged : List String
  added : List String
  reuseMap : List (String × String)
  deriving DecidableEq, Repr

/-- One iteration of the classification loop of `computeDiff` (diff module
127–137): no previous entry → added; differing hash → changed; matching
hash → unchanged, and the previous asset id enters the reuse map. -/
def diffStep (prevEntries : List (String × PreviousManifestEntry))
    (acc : DiffAcc) (entry : String × String) : DiffAcc :=
  match objGet prevEntries entry.1 with
  | none => { acc with added := acc.added ++ [entry.1] }
  | some pe =>
    if pe.hash ≠ entry.2 then { acc with changed := acc.changed ++ [entry.1] }
    else
      { acc with unchanged := acc.unchanged ++ [entry.1],
                 reuseMap := objSet acc.reuseMap entry.1 pe.assetId }

/-- The classification loop over the collected current nodes. -/
def diffFold (prevEntries : List (String × PreviousManifestEntry))
    (entries : List (String × String)) (acc : DiffAcc) : DiffAcc :=
  entries.foldl (diffStep prevEntries) acc

/-- Shallow embedding of `computeDiff` (diff module 86–162), the structural
fingerprint abstracted as `hashFn`; `previous = none` models a missing or
unparsable snapshot file. -/
def computeDiff (hashFn : FNode → String) (currentRoot : FNode)
    (previous : Option PreviousManifest) : DiffManifest :=
  match previous with
  | none =>
    let allNodeIds := collectAllNodeIds currentRoot
    { changed := [], unchanged := [], added := allNodeIds, removed := [], reuseMap := [],
      stats := { totalCurrent := allNodeIds.length, totalPrevious := 0,
                 changedCount := 0, unchangedCount := 0,
                 addedCount := allNodeIds.length, removedCount := 0, savedUploads := 0 } }
  | some prev =>
    let currentNodes := collectNodesWithHashes hashFn currentRoot []
    let acc := diffFold prev.entries currentNodes
      { changed := [], unchanged := [], added := [], reuseMap := [] }
    let removed := (prev.entries.map Prod.fst).filter
      (fun nodeId => (objGet currentNodes nodeId).isNone)
    { changed := acc.changed, unchanged := acc.unchanged, added := acc.added,
      removed := removed, reuseMap := acc.reuseMap,
      stats := { totalCurrent := currentNodes.length,
                 totalPrevious := prev.entries.length,
                 changedCount := acc.changed.length,
                 unchangedCount := acc.unchanged.length,
                 addedCount := acc.added.length,
                 removedCount := removed.length,
                 savedUploads := acc.unchanged.length } }

/-- Concrete node A (root) for the diff scenario. -/
def diffNodeB : FNode :=
  FNode.mk { NData.default with id := "B", name := "New badge", ntype := .RECTANGLE } []

/-- Concrete two-node current tree `{A, B}` with `B` a child of `A`. -/
def diffNodeA : FNode :=
  FNode.mk { NData.default with id := "A", name := "Panel" } [diffNodeB]

/-- A fingerprint function for the concrete diff scenario. -/
def demoHashFn : FNode → String := fun n => "h_" ++ n.data.id

/-- Previous snapshot `{A (matching hash), C}` for the diff scenario. -/
def demoPrev : PreviousManifest :=
  { entries :=
      [("A", { nodeId := "A", name := "Panel", hash := demoHashFn diffNodeA,
               assetId := "rbxassetid://111", width := 0, height := 0 }),
       ("C", { nodeId := "C", name := "Gone", hash := "h_C",
               assetId := "rbxassetid://222", width := 0, height := 0 })] }

/-- Current tree for the C10 witness: a visible root with an invisible child
that itself has a visible child; the previous snapshot knows the invisible
child's id. -/
def invisNodeGrand : FNode :=
  FNode.mk { NData.default with id := "G", name := "Grand" } []

/-- The invisible child (its subtree contains `invisNodeGrand`). -/
def invisNodeX : FNode :=
  FNode.mk { NData.default with id := "X", name := "Hidden", visible := false }
    [invisNodeGrand]

/-- Root of the C10 witness tree. -/
def invisRoot : FNode :=
  FNode.mk { NData.default with id := "R", name := "Root" } [invisNodeX]

/-- Previous snapshot for the C10 witness, holding an entry for `X`. -/
def invisPrev : PreviousManifest :=
  { entries :=
      [("X", { nodeId := "X", name := "Hidden", hash := "h_X",
               assetId := "rbxassetid://333", width := 0, height := 0 })] }

/-! ## Text-stroke deduplication (`deduplicateTextStrokes`,
figma-forge-extract.ts lines 517–633)

The JS pass mutates the sibling array in place and distinguishes duplicated
node objects by reference; the embedding pairs every child with its position
in the sibling list, so reference identity becomes index identity.  The
`fontSize` fallback `child.textStyle?.fontSize ?? child.fontSize ?? 0` is
modelled through `textStyle` only (IR nodes carry no top-level `fontSize`),
and the `${characters}|${fontSize}|${fontFamily}` string key is modelled as
the corresponding tuple. -/

/-- A group key: character content, font size, font family. -/
abbrev GKey := String × ℚ × String

/-- A sibling paired with its index in the sibling list (reference identity). -/
abbrev GPair := Nat × FNode

/-- The grouping key of a child (`none` when the child is not TEXT or has no
truthy `characters`), figma-forge-extract.ts 525–533. -/
def groupKey (d : NData) : Option GKey :=
  if d.ntype = .TEXT then
    match d.characters with
    | some s =>
      if s = "" then none
      else some (s, ((d.textStyle.map TextStyle.fontSize).getD 0),
        ((d.textStyle.map TextStyle.fontFamily).getD "unknown"))
    | none => none
  else none

/-- Append a member to its group, or open a new group (JS `Map` semantics:
first-insertion order of keys, members in push order). -/
def addToGroup : List (GKey × List GPair) → GKey → GPair → List (GKey × List GPair)
  | [], k, p => [(k, [p])]
  | (k', l) :: rest, k, p =>
    if k' = k then (k', l ++ [p]) :: rest else (k', l) :: addToGroup rest k p

/-- Build the text groups of a sibling list (figma-forge-extract.ts 522–534),
threading the running child index. -/
def buildGroupsAux : Nat → List FNode → List (GKey × List GPair) → List (GKey × List GPair)
  | _, [], gs => gs
  | i, c :: rest, gs =>
    match groupKey c.data with
    | some k => buildGroupsAux (i + 1) rest (addToGroup gs k (i, c))
    | none => buildGroupsAux (i + 1) rest gs

/-- The text groups of a sibling list. -/
def buildGroups (cs : List FNode) : List (GKey × List GPair) :=
  buildGroupsAux 0 cs []

/-- `node.fills?.some(f => f.type?.startsWith('GRADIENT_') && f.visible)`. -/
def hasGradientFill (n : FNode) : Bool :=
  n.data.fills.any (fun f => f.ftype.isGradient && f.visible)

/-- `node.effects?.some(e => e.visible)`. -/
def hasVisibleEffect (n : FNode) : Bool :=
  n.data.effects.any (fun e => e.visible)

/-- `Math.max(...)` over a list (used only on nonempty lists). -/
def maxQ : List ℚ → ℚ
  | [] => 0
  | v :: rest => rest.foldl max v

/-- `Math.min(...)` over a list (used only on nonempty lists). -/
def minQ : List ℚ → ℚ
  | [] => 0
  | v :: rest => rest.foldl min v

/-- `.sort((a, b) => a - b)`: ascending numeric sort. -/
def sortQ (l : List ℚ) : List ℚ := l.insertionSort (· ≤ ·)

/-- `sorted[Math.floor(sorted.length / 2)]` (figma-forge-extract.ts 544–547). -/
def medianOf (l : List ℚ) : ℚ := (sortQ l).getD ((sortQ l).length / 2) 0

/-- Outcome of processing one qualifying group: the marked member indices,
the surviving member's index, and the survivor's annotations. -/
structure GroupResult where
  marked : List Nat
  survivor : Nat
  thickness : ℚ
  strokeColor : Option FigmaColor
  deriving DecidableEq, Repr

/-- `const medianX = xs[Math.floor(xs.length / 2)]` over the group's
x coordinates (figma-forge-extract.ts 543–546). -/
def groupMedianX (g : List GPair) : ℚ := medianOf (g.map (fun p => p.2.data.x))

/-- `const medianY = ys[Math.floor(ys.length / 2)]` over the group's
y coordinates. -/
def groupMedianY (g : List GPair) : ℚ := medianOf (g.map (fun p => p.2.data.y))

/-- The core / outlier split around the medians (`CLUSTER_RADIUS = 6`,
figma-forge-extract.ts 549–562): first component the core, second the
outliers, both in group order. -/
def groupPartition (g : List GPair) : List GPair × List GPair :=
  g.partition (fun p =>
    |p.2.data.x - groupMedianX g| ≤ 6 ∧ |p.2.data.y - groupMedianY g| ≤ 6)

/-- `Math.max(...coreXs) - Math.min(...coreXs)` (figma-forge-extract.ts 568–571). -/
def coreXSpread (core : List GPair) : ℚ :=
  maxQ (core.map (fun p => p.2.data.x)) - minQ (core.map (fun p => p.2.data.x))

/-- `Math.max(...coreYs) - Math.min(...coreYs)`. -/
def coreYSpread (core : List GPair) : ℚ :=
  maxQ (core.map (fun p => p.2.data.y)) - minQ (core.map (fun p => p.2.data.y))

/-- Survivor selection (figma-forge-extract.ts 574–595): the first outlier
with a gradient fill or a visible effect, else the last outlier, else the
last group member. -/
def groupSurvivor (g : List GPair) : GPair :=
  match (groupPartition g).2.find?
      (fun p => hasGradientFill p.2 || hasVisibleEffect p.2) with
  | some p => p
  | none =>
    match (groupPartition g).2.getLast? with
    | some p => p
    | none => (g.getLast?).getD (0, FNode.mk NData.default [])

/-- The indices of the group members marked `_isStrokeDuplicate` — everyone
but the survivor (figma-forge-extract.ts 600–604). -/
def groupMarked (g : List GPair) : List Nat :=
  (g.filter (fun p => p.1 ≠ (groupSurvivor g).1)).map (fun p => p.1)

/-- `strokeThickness > 0 ? Math.ceil(strokeThickness) : 2` with
`strokeThickness = Math.max(coreXSpread, coreYSpread) / 2`
(figma-forge-extract.ts 598, 607–609). -/
def groupThickness (core : List GPair) : ℚ :=
  if max (coreXSpread core) (coreYSpread core) / 2 > 0 then
    ((⌈(max (coreXSpread core) (coreYSpread core) / 2 : ℚ)⌉ : ℤ) : ℚ)
  else 2

/-- Stroke-color detection from the first core duplicate that is not the
survivor (figma-forge-extract.ts 612–618). -/
def groupStrokeColor (g : List GPair) : Option FigmaColor :=
  match (groupPartition g).1.find? (fun p => p.1 ≠ (groupSurvivor g).1) with
  | some p =>
    (p.2.data.fills.find? (fun f => f.ftype = .SOLID ∧ f.visible = true)).bind
      Fill.color
  | none => none

/-- Processing of one text group (figma-forge-extract.ts 537–619): `none`
when the group is rejected (too small, loose core) and left untouched. -/
def processGroup (g : List GPair) : Option GroupResult :=
  if g.length < 5 then none
  else if (groupPartition g).1.length < 5 then none
  else if coreXSpread (groupPartition g).1 > 8 ∨ coreYSpread (groupPartition g).1 > 8 then
    none
  else
    some { marked := groupMarked g, survivor := (groupSurvivor g).1,
           thickness := groupThickness (groupPartition g).1,
           strokeColor := groupStrokeColor g }

/-- The survivor's annotations (figma-forge-extract.ts 607–618): inferred
stroke thickness always, inferred stroke color only when a solid visible
fill color was found on a core duplicate. -/
def annotateSurvivor (c : FNode) (th : ℚ) (col : Option FigmaColor) : FNode :=
  match c with
  | .mk d k =>
    .mk { d with
          inferredStrokeThickness := some th,
          inferredStrokeColor :=
            match col with
            | some v => some v
            | none => d.inferredStrokeColor } k

/-- Marked indices and survivor annotations accumulated over all groups of a
sibling list (groups are disjoint, processed in key-insertion order). -/
def dedupMarkedAnnots (cs : List FNode) :
    List Nat × List (Nat × ℚ × Option FigmaColor) :=
  (buildGroups cs).foldl
    (fun acc kg =>
      match processGroup kg.2 with
      | none => acc
      | some r => (acc.1 ++ r.marked, acc.2 ++ [(r.survivor, r.thickness, r.strokeColor)]))
    ([], [])

/-- The sibling list after marking and filtering
(figma-forge-extract.ts 600–623): children whose `_isStrokeDuplicate` flag is
set — by this pass or before — are dropped, the survivor carries its
annotations. -/
def dedupKeep (cs : List FNode) : List FNode :=
  ((cs.enum.filter (fun p =>
      p.1 ∉ (dedupMarkedAnnots cs).1 ∧ p.2.data.isStrokeDuplicate = false)).map
    (fun p =>
      match (dedupMarkedAnnots cs).2.find? (fun a => a.1 = p.1) with
      | some a => annotateSurvivor p.2 a.2.1 a.2.2
      | none => p.2))

/-- One level of the pass: the new sibling list and the number of members
marked at this level (the early return for an empty list included). -/
def dedupLevel (cs : List FNode) : List FNode × Nat :=
  if cs.isEmpty then (cs, 0)
  else (dedupKeep cs, (dedupMarkedAnnots cs).1.length)

/-- Tree-shape size: number of nodes, blind to node data, so that survivor
annotation preserves it. -/
def FNode.shapeSize : FNode → Nat
  | .mk _ cs => 1 + (cs.attach.map (fun c => FNode.shapeSize c.1)).sum
decreasing_by
  have h1 := List.sizeOf_lt_of_mem c.2
  simp only [FNode.mk.sizeOf_spec]
  omega

/-- `shapeSize` in its natural form (needed by the termination argument of
`deduplicateTextStrokes`, hence stated as a definition before it). -/
def shapeSize_mk_eq : ∀ (d : NData) (cs : List FNode),
    FNode.shapeSize (.mk d cs) = 1 + (cs.map FNode.shapeSize).sum := by
  intro d cs
  rw [FNode.shapeSize, List.attach_map_coe]

/-- Every tree has at least one node (termination helper). -/
def shapeSize_pos : ∀ c : FNode, 1 ≤ FNode.shapeSize c := by
  intro c
  cases c with
  | mk d cs =>
    rw [shapeSize_mk_eq]
    omega

/-- Survivor annotation does not change the tree shape (termination helper). -/
def shapeSize_annotate_eq : ∀ (c : FNode) (th : ℚ) (col : Option FigmaColor),
    FNode.shapeSize (annotateSurvivor c th col) = FNode.shapeSize c := by
  intro c th col
  cases c with
  | mk dd kk =>
    have h1 : annotateSurvivor (FNode.mk dd kk) th col =
        FNode.mk { dd with
          inferredStrokeThickness := some th,
          inferredStrokeColor :=
            match col with
            | some v => some v
            | none => dd.inferredStrokeColor } kk := rfl
    rw [h1, shapeSize_mk_eq, shapeSize_mk_eq]

/-- The filtered, annotated sibling list never has more total shape than the
original one (termination helper for `deduplicateTextStrokes`). -/
def dedupLevel_shape_le : ∀ l : List FNode,
    ((dedupLevel l).1.map FNode.shapeSize).sum ≤ (l.map FNode.shapeSize).sum := by
  intro l
  by_cases hl : l.isEmpty
  · simp [dedupLevel, hl]
  · have hgen : ∀ (en : List GPair),
        (((en.filter (fun p =>
            p.1 ∉ (dedupMarkedAnnots l).1 ∧ p.2.data.isStrokeDuplicate = false)).map
          (fun p =>
            match (dedupMarkedAnnots l).2.find? (fun a => a.1 = p.1) with
            | some a => annotateSurvivor p.2 a.2.1 a.2.2
            | none => p.2)).map FNode.shapeSize).sum ≤
        ((en.map Prod.snd).map FNode.shapeSize).sum := by
      intro en
      induction en with
      | nil => simp
      | cons p rest ih =>
        by_cases hp : (p.1 ∉ (dedupMarkedAnnots l).1 ∧ p.2.data.isStrokeDuplicate = false)
        · rw [List.filter_cons, if_pos (by simpa using hp)]
          simp only [List.map_cons, List.sum_cons]
          rcases hfind : (dedupMarkedAnnots l).2.find? (fun a => a.1 = p.1) with _ | a
          · simp only [hfind]
            omega
          · simp only [hfind, shapeSize_annotate_eq]
            omega
        · rw [List.filter_cons, if_neg (by simpa using hp)]
          simp only [List.map_cons, List.sum_cons]
          omega
    have hfin := hgen l.enum
    rw [List.enum_map_snd] at hfin
    simp only [dedupLevel, hl, Bool.false_eq_true, if_false]
    exact le_trans (le_of_eq (by rw [dedupKeep])) hfin

mutual

/-- Shallow embedding of `deduplicateTextStrokes`
(figma-forge-extract.ts 517–633): process the current sibling level, then
recurse into the remaining children; returns the rewritten node and the
count of removed duplicates. -/
def deduplicateTextStrokes : FNode → FNode × Nat
  | .mk d cs =>
    let lvl := dedupLevel cs
    let r := dedupChildren lvl.1
    (.mk d r.1, lvl.2 + r.2)
termination_by n => 2 * FNode.shapeSize n
decreasing_by
  rename_i d cs
  have hkey := dedupLevel_shape_le cs
  have hmk := shapeSize_mk_eq d cs
  omega

/-- Recursion into the filtered children. -/
def dedupChildren : List FNode → List FNode × Nat
  | [] => ([], 0)
  | c :: rest =>
    let r1 := deduplicateTextStrokes c
    let r2 := dedupChildren rest
    (r1.1 :: r2.1, r1.2 + r2.2)
termination_by l => 2 * (l.map FNode.shapeSize).sum + 1
decreasing_by
  · simp only [List.map_cons, List.sum_cons]
    omega
  · simp only [List.map_cons, List.sum_cons]
    have hpos := shapeSize_pos c
    omega

end

/-- The spec's stroke-spread formula, written from the spec's words for
comparison with the code: `max(core x-spread, core y-spread)` over the core
duplicates. -/
def coreSpread (core : List FNode) : ℚ :=
  max (maxQ (core.map (fun c => c.data.x)) - minQ (core.map (fun c => c.data.x)))
      (maxQ (core.map (fun c => c.data.y)) - minQ (core.map (fun c => c.data.y)))

/-- The spec's inferred-thickness formula, written from the spec's words for
comparison with the code: `ceil(max(core x-spread, core y-spread) / 2)`,
with 2px when the computed spread is zero. -/
def claimedThickness (core : List FNode) : ℚ :=
  if coreSpread core = 0 then 2 else ((⌈(coreSpread core / 2 : ℚ)⌉ : ℤ) : ℚ)

/-- A core stroke-copy TEXT leaf of the dedup demonstration (used in 8
identical copies at the origin). -/
def c6CoreNode : FNode :=
  FNode.mk
    { NData.default with
      id := "9:1", name := "WIN", ntype := .TEXT, characters := some "WIN",
      textStyle := some { fontSize := 16, fontFamily := "Inter" },
      fills := [{ ftype := .SOLID, visible := true, opacity := 1,
                  color := some { r := 0, g := 0, b := 0, a := 1 },
                  imageHash := none }] } []

/-- The real text of the dedup demonstration: same content fingerprint,
positioned 20px to the right, carrying a visible gradient fill. -/
def c6OutNode : FNode :=
  FNode.mk
    { NData.default with
      id := "9:9", name := "WIN", ntype := .TEXT, characters := some "WIN",
      x := 20,
      textStyle := some { fontSize := 16, fontFamily := "Inter" },
      fills := [{ ftype := .GRADIENT_LINEAR, visible := true, opacity := 1,
                  color := none, imageHash := none }] } []

/-! ## Pipeline driver (`processManifestAsync`, figma-forge-cli.ts 86–109) -/

/-- The `ProcessOptions` fields the verified path reads. -/
structure ProcessOptions where
  skipDedup : Bool
  resolveImages : Bool
  deriving Repr

/-- `processManifestAsync` (figma-forge-cli.ts 86–109): deduplicate text
strokes unless skipped, resolve images when the flag is set and the manifest
declares unresolved content, then assemble the `.rbxmx` output; a resolver
error rejects the promise, so it propagates before any output is produced.
The assembler itself is abstract here (`assemble`). -/
def processManifest (assemble : Manifest → String)
    (upload exported : String → Option String) (cache0 : ImageCache)
    (opts : ProcessOptions) (m : Manifest) :
    List UpEvent × Except ResolveErr String :=
  let root1 := if opts.skipDedup then m.root else (deduplicateTextStrokes m.root).1
  let m1 : Manifest := { root := root1, unresolvedImages := m.unresolvedImages }
  if opts.resolveImages && !m1.unresolvedImages.isEmpty then
    match resolveImages upload exported cache0 m1 with
    | (evs, .error e) => (evs, .error e)
    | (evs, .ok (_, root2)) =>
      (evs, .ok (assemble { root := root2, unresolvedImages := m1.unresolvedImages }))
  else ([], .ok (assemble m1))

/-- An abstract assembler for concrete runs. -/
def demoAssemble : Manifest → String := fun _ => "<roblox/>"

/-- Options asking for image resolution with the dedup pass enabled. -/
def c4Opts : ProcessOptions := { skipDedup := false, resolveImages := true }

end FigmaForge

namespace FigmaForge

/-! ## Theorems -/

@[simp] theorem FNode.data_mk (d : NData) (cs : List FNode) : (FNode.mk d cs).data = d := rfl

@[simp] theorem FNode.children_mk (d : NData) (cs : List FNode) :
    (FNode.mk d cs).children = cs := rfl

/-- `treeMapData` in its natural form, with the `attach` removed. -/
@[simp] theorem treeMapData_mk (f : NData → NData) (d : NData) (cs : List FNode) :
    treeMapData f (.mk d cs) = .mk (f d) (cs.map (treeMapData f)) := by
  simp only [treeMapData]
  rw [List.attach_map_coe]

/-! ### C1 — classification of flatten-tagged nodes -/

/-- C1 counterexample: a node explicitly tagged flatten whose type-tag is TEXT
is classified `text_dynamic` (TEXT), not `png` (RASTER) — so the flatten rule
does not have top priority, contradicting the claim. -/
theorem classifyNode_flattened_text_not_raster :
    flattenedTextNode.data.isFlattened = true ∧
    flattenedTextNode.data.ntype = .TEXT ∧
    classifyNode flattenedTextNode demoConfig = .text_dynamic ∧
    classifyNode flattenedTextNode demoConfig ≠ .png := by
  refine ⟨rfl, rfl, rfl, ?_⟩
  decide

/-- C1 (amended): the TEXT rule has top priority: a node whose type-tag is
TEXT is classified TEXT even when explicitly tagged flatten; a flatten-tagged
node of any other type is always classified RASTER regardless of content. -/
theorem classifyNode_flatten_raster_unless_text (node : FNode) (config : RuntimeConfig) :
    (node.data.ntype = .TEXT → classifyNode node config = .text_dynamic) ∧
    (node.data.isFlattened = true → node.data.ntype ≠ .TEXT →
      classifyNode node config = .png) := by
  constructor
  · intro ht
    simp [classifyNode, ht]
  · intro hf hnt
    simp [classifyNode, hnt, hf]

/-- Witness for the amended C1 theorem at a concrete flatten-tagged FRAME with
children: it is classified `png` even though it has structure beneath it. -/
theorem classifyNode_flatten_raster_unless_text_witness :
    classifyNode flattenedFrameNode demoConfig = .png :=
  (classifyNode_flatten_raster_unless_text flattenedFrameNode demoConfig).2 rfl (by decide)

/-! ### C8 — geometry of auto-layout children -/

/-- C8: for a non-root node under an auto-layout parent, called as the
assembler calls it (default size offsets are the node's rounded pixel extent):
a `FILL` axis emits size scale 1 / offset 0, a `HUG` or `FIXED` (or absent)
sizing mode emits scale 0 with the node's pixel extent as the offset, and the
emitted position is zero in all four components, with no anchor. -/
theorem emitGeometry_auto_layout_child (node : NData) (constraints : Option Constraints)
    (pw ph : ℚ) :
    (emitGeometry node constraints false true pw ph
        (jsRound node.width) (jsRound node.height)).position = ⟨0, 0, 0, 0⟩ ∧
    (emitGeometry node constraints false true pw ph
        (jsRound node.width) (jsRound node.height)).anchor = none ∧
    (node.layoutSizingHorizontal = some .FILL →
      (emitGeometry node constraints false true pw ph
          (jsRound node.width) (jsRound node.height)).size.xs = 1 ∧
      (emitGeometry node constraints false true pw ph
          (jsRound node.width) (jsRound node.height)).size.xo = 0) ∧
    (node.layoutSizingHorizontal ≠ some .FILL →
      (emitGeometry node constraints false true pw ph
          (jsRound node.width) (jsRound node.height)).size.xs = 0 ∧
      (emitGeometry node constraints false true pw ph
          (jsRound node.width) (jsRound node.height)).size.xo = jsRound node.width) ∧
    (node.layoutSizingVertical = some .FILL →
      (emitGeometry node constraints false true pw ph
          (jsRound node.width) (jsRound node.height)).size.ys = 1 ∧
      (emitGeometry node constraints false true pw ph
          (jsRound node.width) (jsRound node.height)).size.yo = 0) ∧
    (node.layoutSizingVertical ≠ some .FILL →
      (emitGeometry node constraints false true pw ph
          (jsRound node.width) (jsRound node.height)).size.ys = 0 ∧
      (emitGeometry node constraints false true pw ph
          (jsRound node.width) (jsRound node.height)).size.yo = jsRound node.height) := by
  refine ⟨by simp [emitGeometry], by simp [emitGeometry], ?_, ?_, ?_, ?_⟩
  · intro hf
    constructor <;> simp [emitGeometry, hf]
  · intro hf
    constructor <;> simp [emitGeometry, hf]
  · intro hf
    constructor <;> simp [emitGeometry, hf]
  · intro hf
    constructor <;> simp [emitGeometry, hf]

/-- Witness for C8 at `demoAutoChild`: the FILL axis gets scale 1 and the HUG
axis gets scale 0 with the rounded pixel height as offset. -/
theorem emitGeometry_auto_layout_child_witness :
    (emitGeometry demoAutoChild none false true 800 600
        (jsRound demoAutoChild.width) (jsRound demoAutoChild.height)).size.xs = 1 ∧
    (emitGeometry demoAutoChild none false true 800 600
        (jsRound demoAutoChild.width) (jsRound demoAutoChild.height)).size.xo = 0 ∧
    (emitGeometry demoAutoChild none false true 800 600
        (jsRound demoAutoChild.width) (jsRound demoAutoChild.height)).size.ys = 0 ∧
    (emitGeometry demoAutoChild none false true 800 600
        (jsRound demoAutoChild.width) (jsRound demoAutoChild.height)).size.yo =
      jsRound demoAutoChild.height := by
  have h := emitGeometry_auto_layout_child demoAutoChild none 800 600
  exact ⟨(h.2.2.1 rfl).1, (h.2.2.1 rfl).2,
    (h.2.2.2.2.2 (by decide)).1, (h.2.2.2.2.2 (by decide)).2⟩

/-! ### C9 — non-uniform corner radius -/

/-- C9 counterexample: for a node with the non-uniform per-corner radius
`[10, 40, 0, 0]`, the emitted UICorner uses offset 10 — the FIRST corner —
while the maximum of the four corners is 40, so the emitted uniform radius is
not the maximum. (The `getEffectiveCornerRadius` helper does return the
maximum and log, but the emitter does not call it.) -/
theorem containerUICorner_not_max :
    containerUICorner unevenCornerNode = some (0, 10) ∧
    (getEffectiveCornerRadius unevenCornerNode).radiusPx = 40 ∧
    (10 : ℤ) ≠ 40 := by
  refine ⟨?_, by decide, by decide⟩
  norm_num [containerUICorner, containerCornerScalar, unevenCornerNode, jsRound]

/-- C9 (amended): for a node with a non-uniform per-corner radius, the shared
helper `getEffectiveCornerRadius` returns the maximum of the four corners
(and logs the approximation), but the uniform corner radius actually used in
the emitted output is the first (top-left) of the four corner values; when
that value is positive and below the full-circle threshold the emitted
UICorner offset is its rounding. -/
theorem containerUICorner_uses_first_corner (node : NData) (tl tr br bl : ℚ)
    (hcr : node.cornerRadius = .perCorner tl tr br bl)
    (hne : isEllipse node = false) :
    (getEffectiveCornerRadius node).radiusPx = max (max (max tl tr) br) bl ∧
    containerCornerScalar node = tl ∧
    (0 < tl → tl < min node.width node.height / 2 →
      containerUICorner node = some (0, jsRound tl)) := by
  refine ⟨by simp [getEffectiveCornerRadius, hne, hcr], by simp [containerCornerScalar, hcr], ?_⟩
  intro hpos hlt
  have hscalar : containerCornerScalar node = tl := by simp [containerCornerScalar, hcr]
  simp only [containerUICorner, hscalar]
  rw [if_pos hpos, if_neg (not_le.mpr hlt)]

/-- Witness for the amended C9 theorem at `unevenCornerNode`. -/
theorem containerUICorner_uses_first_corner_witness :
    (getEffectiveCornerRadius unevenCornerNode).radiusPx = max (max (max 10 40) 0) 0 ∧
    containerCornerScalar unevenCornerNode = 10 ∧
    ((0 : ℚ) < 10 → (10 : ℚ) < min unevenCornerNode.width unevenCornerNode.height / 2 →
      containerUICorner unevenCornerNode = some (0, jsRound 10)) :=
  containerUICorner_uses_first_corner unevenCornerNode 10 40 0 0 rfl (by decide)

/-! ### Association-list lemmas -/

theorem objGet_objSet_self {α : Type} (m : List (String × α)) (k : String) (v : α) :
    objGet (objSet m k v) k = some v := by
  induction m with
  | nil => simp [objSet, objGet]
  | cons p rest ih =>
    obtain ⟨q, w⟩ := p
    by_cases hk : q = k
    · simp [objSet, hk, objGet]
    · simp [objSet, hk, objGet, ih]

theorem objGet_objSet_ne {α : Type} (m : List (String × α)) (k q : String) (v : α)
    (hne : q ≠ k) : objGet (objSet m k v) q = objGet m q := by
  induction m with
  | nil => simp [objSet, objGet, Ne.symm hne]
  | cons p rest ih =>
    obtain ⟨k', v'⟩ := p
    by_cases hk : k' = k
    · subst hk
      simp [objSet, objGet, Ne.symm hne]
    · by_cases hq : k' = q
      · subst hq
        simp [objSet, hk, objGet]
      · simp [objSet, hk, objGet, hq, ih]

/-! ### Resolution-loop invariants -/

/-- A cache entry is never overwritten or dropped by the loop: entries are
immutable once present (uploads happen only on cache misses). -/
theorem resolveLoop_cache_preserved (u e : String → Option String) (p a : String) :
    ∀ (hs : List String) (cache : ImageCache) (root : FNode) {c1 : ImageCache} {r1 : FNode},
      objGet cache p = some a →
      (resolveLoop u e hs cache root).2 = .ok (c1, r1) →
      objGet c1 p = some a := by
  intro hs
  induction hs with
  | nil =>
    intro cache root c1 r1 hc hok
    simp [resolveLoop] at hok
    rw [← hok.1]
    exact hc
  | cons hd rest ih =>
    intro cache root c1 r1 hc hok
    cases hg : objGet cache hd with
    | some a0 =>
      simp [resolveLoop, hg] at hok
      exact ih _ _ hc hok
    | none =>
      cases he : e hd with
      | none => simp [resolveLoop, hg, he] at hok
      | some b =>
        cases hu : u hd with
        | none => simp [resolveLoop, hg, he, hu] at hok
        | some a2 =>
          simp [resolveLoop, hg, he, hu] at hok
          have hne : hd ≠ p := by
            intro heq
            rw [heq, hc] at hg
            cases hg
          have hc2 : objGet (objSet cache hd a2) p = some a := by
            rw [objGet_objSet_ne _ _ _ _ (Ne.symm hne)]
            exact hc
          exact ih _ _ hc2 hok

theorem countUploads_nil (p : String) : countUploads [] p = 0 := rfl

theorem countUploads_cons (ev : UpEvent) (evs : List UpEvent) (p : String) :
    countUploads (ev :: evs) p =
      countUploads evs p + (if ev = UpEvent.upload p then 1 else 0) := by
  simp [countUploads, List.countP_cons]

/-- A hash already present in the cache triggers no upload call in the run. -/
theorem resolveLoop_cached_no_upload (u e : String → Option String) (p a : String) :
    ∀ (hs : List String) (cache : ImageCache) (root : FNode),
      objGet cache p = some a →
      countUploads (resolveLoop u e hs cache root).1 p = 0 := by
  intro hs
  induction hs with
  | nil =>
    intro cache root _hc
    simp [resolveLoop, countUploads_cons, countUploads_nil]
  | cons hd rest ih =>
    intro cache root hc
    cases hg : objGet cache hd with
    | some a0 =>
      simp [resolveLoop, hg, countUploads_cons]
      exact ih _ _ hc
    | none =>
      have hne : hd ≠ p := by
        intro heq
        rw [heq, hc] at hg
        cases hg
      cases he : e hd with
      | none => simp [resolveLoop, hg, he, countUploads_nil]
      | some b =>
        cases hu : u hd with
        | none => simp [resolveLoop, hg, he, hu, countUploads_cons, countUploads_nil, hne]
        | some a2 =>
          have hc2 : objGet (objSet cache hd a2) p = some a := by
            rw [objGet_objSet_ne _ _ _ _ (Ne.symm hne)]
            exact hc
          simp [resolveLoop, hg, he, hu, countUploads_cons, hne]
          exact ih _ _ hc2

/-- At most one upload call per distinct content hash in a single run. -/
theorem resolveLoop_upload_le_one (u e : String → Option String) (p : String) :
    ∀ (hs : List String) (cache : ImageCache) (root : FNode),
      countUploads (resolveLoop u e hs cache root).1 p ≤ 1 := by
  intro hs
  induction hs with
  | nil =>
    intro cache root
    simp [resolveLoop, countUploads_cons, countUploads_nil]
  | cons hd rest ih =>
    intro cache root
    cases hg : objGet cache hd with
    | some a0 =>
      simp [resolveLoop, hg, countUploads_cons]
      exact ih _ _
    | none =>
      cases he : e hd with
      | none => simp [resolveLoop, hg, he, countUploads_nil]
      | some b =>
        cases hu : u hd with
        | none =>
          simp [resolveLoop, hg, he, hu, countUploads_cons, countUploads_nil]
          by_cases hdp : hd = p <;> simp [hdp]
        | some a2 =>
          by_cases hdp : hd = p
          · subst hdp
            have h0 := resolveLoop_cached_no_upload u e hd a2 rest
              (objSet cache hd a2) (applyResolvedId root hd a2)
              (objGet_objSet_self cache hd a2)
            simp [resolveLoop, hg, he, hu, countUploads_cons, h0]
          · simp [resolveLoop, hg, he, hu, countUploads_cons, hdp]
            exact ih _ _

/-- If the run completes and some upload call for hash `p` happened during it,
then the final in-memory cache (which `saveImageCache` persists) holds an
entry for `p`. -/
theorem resolveLoop_uploaded_implies_cached (u e : String → Option String) (p : String) :
    ∀ (hs : List String) (cache : ImageCache) (root : FNode) {c1 : ImageCache} {r1 : FNode},
      (resolveLoop u e hs cache root).2 = .ok (c1, r1) →
      0 < countUploads (resolveLoop u e hs cache root).1 p →
      ∃ a, objGet c1 p = some a := by
  intro hs
  induction hs with
  | nil =>
    intro cache root c1 r1 _ hpos
    simp [resolveLoop, countUploads] at hpos
  | cons hd rest ih =>
    intro cache root c1 r1 hok hpos
    cases hg : objGet cache hd with
    | some a0 =>
      simp [resolveLoop, hg] at hok
      simp [resolveLoop, hg, countUploads_cons] at hpos
      exact ih _ _ hok hpos
    | none =>
      cases he : e hd with
      | none => simp [resolveLoop, hg, he] at hok
      | some b =>
        cases hu : u hd with
        | none => simp [resolveLoop, hg, he, hu] at hok
        | some a2 =>
          simp [resolveLoop, hg, he, hu] at hok
          by_cases hdp : hd = p
          · subst hdp
            exact ⟨a2, resolveLoop_cache_preserved u e hd a2 rest _ _
              (objGet_objSet_self cache hd a2) hok⟩
          · simp [resolveLoop, hg, he, hu, countUploads_cons, hdp] at hpos
            exact ih _ _ hok hpos

/-- Wrapper form of the upload bound for `resolveImages`. -/
theorem resolveImages_upload_le_one (u e : String → Option String)
    (cache0 : ImageCache) (m : Manifest) (p : String) :
    countUploads (resolveImages u e cache0 m).1 p ≤ 1 := by
  by_cases hm : m.unresolvedImages.isEmpty
  · simp [resolveImages, hm, countUploads_nil]
  · simp [resolveImages, hm]
    exact resolveLoop_upload_le_one u e p _ _ _

/-- Wrapper form of the cached-hash guarantee for `resolveImages`. -/
theorem resolveImages_cached_no_upload (u e : String → Option String)
    (cache0 : ImageCache) (m : Manifest) (p a : String)
    (hc : objGet cache0 p = some a) :
    countUploads (resolveImages u e cache0 m).1 p = 0 := by
  by_cases hm : m.unresolvedImages.isEmpty
  · simp [resolveImages, hm, countUploads_nil]
  · simp [resolveImages, hm]
    exact resolveLoop_cached_no_upload u e p a _ _ _ hc

/-- Wrapper form: a completed run that uploaded `p` leaves `p` in the final
cache. -/
theorem resolveImages_uploaded_implies_cached (u e : String → Option String)
    (cache0 : ImageCache) (m : Manifest) (p : String) {c1 : ImageCache} {r1 : FNode}
    (hok : (resolveImages u e cache0 m).2 = .ok (c1, r1))
    (hpos : 0 < countUploads (resolveImages u e cache0 m).1 p) :
    ∃ a, objGet c1 p = some a := by
  by_cases hm : m.unresolvedImages.isEmpty
  · simp [resolveImages, hm, countUploads_nil] at hpos
  · simp [resolveImages, hm] at hok hpos
    exact resolveLoop_uploaded_implies_cached u e p _ _ _ hok hpos

/-! ### Tree-map lemmas -/

/-- Induction principle for `FNode`: to prove a property of every tree it is
enough to prove it for a node assuming it for all children. -/
theorem FNode.inductionOn {P : FNode → Prop}
    (step : ∀ d cs, (∀ c ∈ cs, P c) → P (FNode.mk d cs)) : ∀ t, P t
  | .mk d cs => step d cs (fun c hc => FNode.inductionOn step c)
decreasing_by
  have h1 := List.sizeOf_lt_of_mem hc
  simp only [FNode.mk.sizeOf_spec]
  omega

theorem treeMapData_id (t : FNode) : treeMapData (fun d => d) t = t := by
  induction t using FNode.inductionOn with
  | step d cs ih =>
    rw [treeMapData_mk]
    rw [List.map_congr_left ih]
    simp

theorem treeMapData_comp (f g : NData → NData) (t : FNode) :
    treeMapData f (treeMapData g t) = treeMapData (fun d => f (g d)) t := by
  induction t using FNode.inductionOn with
  | step d cs ih =>
    rw [treeMapData_mk, treeMapData_mk, treeMapData_mk, List.map_map]
    have : cs.map (treeMapData f ∘ treeMapData g) =
        cs.map (treeMapData fun d => f (g d)) :=
      List.map_congr_left (fun c hc => ih c hc)
    rw [this]

@[simp] theorem applyPairsData_nil (d : NData) : applyPairsData [] d = d := rfl

@[simp] theorem applyPairsData_cons (h a : String) (ps : List (String × String)) (d : NData) :
    applyPairsData ((h, a) :: ps) d = applyPairsData ps (applyResolvedData h a d) := rfl

theorem applyResolvedData_fills (h a : String) (d : NData) :
    (applyResolvedData h a d).fills = d.fills := by
  unfold applyResolvedData
  split <;> rfl

theorem applyResolvedData_raster (h a : String) (d : NData) :
    (applyResolvedData h a d).rasterizedImageHash = d.rasterizedImageHash := by
  unfold applyResolvedData
  split <;> rfl

theorem applyResolvedData_resolved_congr (h a : String) (d1 d2 : NData)
    (hf : d1.fills = d2.fills)
    (hr : d1.rasterizedImageHash = d2.rasterizedImageHash)
    (hres : d1.resolvedImageId = d2.resolvedImageId) :
    (applyResolvedData h a d1).resolvedImageId = (applyResolvedData h a d2).resolvedImageId := by
  simp only [applyResolvedData, hf, hr]
  split
  · rfl
  · exact hres

/-- The three hash-relevant fields evolve identically under a sequence of
`applyResolvedId` updates for two nodes that agree on them. -/
theorem applyPairsData_key_congr :
    ∀ (ps : List (String × String)) (d1 d2 : NData),
      d1.fills = d2.fills →
      d1.rasterizedImageHash = d2.rasterizedImageHash →
      d1.resolvedImageId = d2.resolvedImageId →
      (applyPairsData ps d1).fills = (applyPairsData ps d2).fills ∧
      (applyPairsData ps d1).rasterizedImageHash = (applyPairsData ps d2).rasterizedImageHash ∧
      (applyPairsData ps d1).resolvedImageId = (applyPairsData ps d2).resolvedImageId := by
  intro ps
  induction ps with
  | nil =>
    intro d1 d2 hf hr hres
    exact ⟨hf, hr, hres⟩
  | cons p ps ih =>
    intro d1 d2 hf hr hres
    obtain ⟨h, a⟩ := p
    rw [applyPairsData_cons, applyPairsData_cons]
    exact ih _ _
      (by rw [applyResolvedData_fills, applyResolvedData_fills, hf])
      (by rw [applyResolvedData_raster, applyResolvedData_raster, hr])
      (applyResolvedData_resolved_congr h a d1 d2 hf hr hres)

/-- The final tree of a completed loop is the original tree mapped through
one pure per-node function: the composition of the run's `applyResolvedId`
updates. -/
theorem resolveLoop_tree (u e : String → Option String) :
    ∀ (hs : List String) (cache : ImageCache) (root : FNode) {c1 : ImageCache} {r1 : FNode},
      (resolveLoop u e hs cache root).2 = .ok (c1, r1) →
      ∃ ps : List (String × String), r1 = treeMapData (applyPairsData ps) root := by
  intro hs
  induction hs with
  | nil =>
    intro cache root c1 r1 hok
    simp [resolveLoop] at hok
    exact ⟨[], by rw [← hok.2]; exact (treeMapData_id root).symm⟩
  | cons hd rest ih =>
    intro cache root c1 r1 hok
    cases hg : objGet cache hd with
    | some a0 =>
      simp [resolveLoop, hg] at hok
      obtain ⟨ps, hps⟩ := ih _ _ hok
      refine ⟨(hd, a0) :: ps, ?_⟩
      rw [hps]
      show treeMapData (applyPairsData ps)
          (treeMapData (applyResolvedData hd a0) root) = _
      rw [treeMapData_comp]
      rfl
    | none =>
      cases he : e hd with
      | none => simp [resolveLoop, hg, he] at hok
      | some b =>
        cases hu : u hd with
        | none => simp [resolveLoop, hg, he, hu] at hok
        | some a2 =>
          simp [resolveLoop, hg, he, hu] at hok
          obtain ⟨ps, hps⟩ := ih _ _ hok
          refine ⟨(hd, a2) :: ps, ?_⟩
          rw [hps]
          show treeMapData (applyPairsData ps)
              (treeMapData (applyResolvedData hd a2) root) = _
          rw [treeMapData_comp]
          rfl

/-! ### C5 — upload deduplication and cache idempotence -/

/-- C5: (i) a hash present in the loaded persistent cache resolves with no
upload call; (ii) any single run makes at most one upload call per distinct
content hash; (iii) across two runs where the second starts from the
persisted cache of a completed first run, at most one upload call total is
made for each hash; (iv) the resolved tree of a completed loop is the input
tree mapped through one pure per-node function under which any two nodes
agreeing on their image fills, rasterization hash and prior resolved id — in
particular two nodes with identical visual content and the same computed
hash — receive the same resolved asset id. -/
theorem resolveImages_upload_dedup
    (u1 e1 u2 e2 : String → Option String) (cache0 : ImageCache)
    (m m2 : Manifest) (p : String) :
    (∀ a, objGet cache0 p = some a →
      countUploads (resolveImages u1 e1 cache0 m).1 p = 0) ∧
    countUploads (resolveImages u1 e1 cache0 m).1 p ≤ 1 ∧
    (∀ c1 root1, (resolveImages u1 e1 cache0 m).2 = .ok (c1, root1) →
      countUploads (resolveImages u1 e1 cache0 m).1 p +
        countUploads (resolveImages u2 e2 c1 m2).1 p ≤ 1) ∧
    (∀ (root : FNode) (cache : ImageCache) (c1 : ImageCache) (r1 : FNode),
      (resolveLoop u1 e1 m.unresolvedImages cache root).2 = .ok (c1, r1) →
      ∃ ps : List (String × String),
        r1 = treeMapData (applyPairsData ps) root ∧
        ∀ d1 d2 : NData, d1.fills = d2.fills →
          d1.rasterizedImageHash = d2.rasterizedImageHash →
          d1.resolvedImageId = d2.resolvedImageId →
          (applyPairsData ps d1).resolvedImageId =
            (applyPairsData ps d2).resolvedImageId) := by
  refine ⟨fun a hc => resolveImages_cached_no_upload u1 e1 cache0 m p a hc,
    resolveImages_upload_le_one u1 e1 cache0 m p, ?_, ?_⟩
  · intro c1 root1 hok
    by_cases hpos : 0 < countUploads (resolveImages u1 e1 cache0 m).1 p
    · obtain ⟨a, ha⟩ := resolveImages_uploaded_implies_cached u1 e1 cache0 m p hok hpos
      have h2 := resolveImages_cached_no_upload u2 e2 c1 m2 p a ha
      have h1 := resolveImages_upload_le_one u1 e1 cache0 m p
      omega
    · have h2 := resolveImages_upload_le_one u2 e2 c1 m2 p
      omega
  · intro root cache c1 r1 hok
    obtain ⟨ps, hps⟩ := resolveLoop_tree u1 e1 m.unresolvedImages cache root hok
    exact ⟨ps, hps, fun d1 d2 hf hr hres =>
      (applyPairsData_key_congr ps d1 d2 hf hr hres).2.2⟩

/-- Witness for C5: concretely, with a persisted cache holding `hash_a`, a
run that asks for `hash_a` twice makes zero upload calls (part (i) of the
theorem applied at `cacheWithA` / `doubleHashManifest`). -/
theorem resolveImages_upload_dedup_witness :
    countUploads
      (resolveImages alwaysUpload noExported cacheWithA doubleHashManifest).1
      "hash_a" = 0 :=
  (resolveImages_upload_dedup alwaysUpload noExported alwaysUpload noExported
    cacheWithA doubleHashManifest doubleHashManifest "hash_a").1 "77" rfl

/-! ### C3 — solid-fill optimization and the resolution set -/

@[simp] theorem RawNode.rawData_mk (d : RawData) (cs : List RawNode) :
    (RawNode.mk d cs).data = d := rfl

@[simp] theorem RawNode.rawChildren_mk (d : RawData) (cs : List RawNode) :
    (RawNode.mk d cs).children = cs := rfl

/-- `rawNodes` in its natural form, with the `attach` removed. -/
@[simp] theorem rawNodes_mk (d : RawData) (cs : List RawNode) :
    rawNodes (.mk d cs) = .mk d cs :: (cs.map rawNodes).flatten := by
  simp only [rawNodes]
  rw [List.attach_map_coe]

mutual

/-- Every hash in the raster part of the walk output is the raster hash of
some node of the tree whose classification queued it for rasterization. -/
theorem extractWalk_rasters_sound :
    ∀ (n : RawNode) (imgs : List String) (hh : String),
      hh ∈ (extractWalk n imgs).2 →
      ∃ m ∈ rawNodes n, hh = rasterHashOf m.data.id ∧
        (extractClassify m.data (!m.children.isEmpty)).queued = true
  | .mk d cs, imgs, hh => by
    intro hmem
    by_cases hfl : (extractClassify d (!cs.isEmpty)).isFlattened = true
    · simp only [extractWalk, hfl, if_true] at hmem
      by_cases hq : (extractClassify d (!cs.isEmpty)).queued = true
      · simp only [hq, if_true, List.mem_singleton] at hmem
        exact ⟨.mk d cs, by simp, by simpa using hmem, by simpa using hq⟩
      · simp [hq] at hmem
    · simp only [extractWalk, hfl, if_false, Bool.false_eq_true] at hmem
      rw [List.mem_append] at hmem
      rcases hmem with hmem | hmem
      · by_cases hq : (extractClassify d (!cs.isEmpty)).queued = true
        · simp only [hq, if_true, List.mem_singleton] at hmem
          exact ⟨.mk d cs, by simp, by simpa using hmem, by simpa using hq⟩
        · simp [hq] at hmem
      · obtain ⟨n', hn', m, hm, hrest⟩ := extractWalkList_rasters_sound cs _ hh hmem
        refine ⟨m, ?_, hrest⟩
        rw [rawNodes_mk, List.mem_cons]
        exact Or.inr (List.mem_flatten.mpr ⟨rawNodes n', List.mem_map_of_mem rawNodes hn', hm⟩)
  termination_by n _ _ => sizeOf n
  decreasing_by
    simp only [RawNode.mk.sizeOf_spec]
    omega

/-- List form of `extractWalk_rasters_sound`. -/
theorem extractWalkList_rasters_sound :
    ∀ (l : List RawNode) (imgs : List String) (hh : String),
      hh ∈ (extractWalkList l imgs).2 →
      ∃ n' ∈ l, ∃ m ∈ rawNodes n', hh = rasterHashOf m.data.id ∧
        (extractClassify m.data (!m.children.isEmpty)).queued = true
  | [], imgs, hh => by
    intro hmem
    simp [extractWalkList] at hmem
  | c :: rest, imgs, hh => by
    intro hmem
    simp only [extractWalkList] at hmem
    rw [List.mem_append] at hmem
    rcases hmem with hmem | hmem
    · obtain ⟨m, hm, hrest⟩ := extractWalk_rasters_sound c imgs hh hmem
      exact ⟨c, List.mem_cons_self c rest, m, hm, hrest⟩
    · obtain ⟨n', hn', m, hm, hrest⟩ :=
        extractWalkList_rasters_sound rest (extractWalk c imgs).1 hh hmem
      exact ⟨n', List.mem_cons_of_mem c hn', m, hm, hrest⟩
  termination_by l _ _ => sizeOf l
  decreasing_by
    all_goals simp only [List.cons.sizeOf_spec]
    all_goals omega

end

/-- C3 counterexample: `solidLeaf` is a leaf (zero children) with exactly one
visible fill, that fill a flat solid color, no stroke and no flatten tag; it
IS marked for native background-color emission (`_solidFill` set), but it is
still queued for rasterization and its raster hash DOES appear in the
manifest's unresolved-content list — the claim's "never appears" fails. -/
theorem solid_leaf_hash_in_resolution_set :
    solidLeaf.children = [] ∧
    (solidLeaf.data.fills.filter (fun f => f.visible)).length = 1 ∧
    ((solidLeaf.data.fills.filter (fun f => f.visible)).head?.map RawFill.ftype)
      = some .SOLID ∧
    solidLeaf.data.strokes = 0 ∧
    isFlattenTagName solidLeaf.data.name = false ∧
    (extractClassify solidLeaf.data (!solidLeaf.children.isEmpty)).solidFill.isSome = true ∧
    rasterHashOf solidLeaf.data.id ∈ unresolvedImagesOf solidLeafRoot := by
  refine ⟨rfl, by decide, by decide, rfl, by decide, by decide, ?_⟩
  have hwalk : extractWalk solidLeafRoot [] = ([], ["raster_5_1"]) := by
    rw [solidLeafRoot]
    rw [extractWalk]
    simp +decide [extractWalk, extractWalkList, collectImageHashes, solidLeaf]
  have hh : rasterHashOf solidLeaf.data.id = "raster_5_1" := by decide
  rw [unresolvedImagesOf, hwalk, hh]
  simp

/-- C3 (amended): a node with exactly one visible fill that is a flat solid
color, no visible stroke, and no flatten tag is always marked for native
background-color emission; when it HAS children it is skipped by the
rasterizer (not queued, not hybrid), and — provided no other node shares its
raster key — its hash never enters the raster part of the resolution set;
but when it is a LEAF it is still flattened and queued, so its raster hash
does appear. -/
theorem solid_fill_container_skips_raster (d : RawData) (f : RawFill)
    (hvf : d.fills.filter (fun f => f.visible) = [f])
    (hsolid : f.ftype = .SOLID)
    (hstroke : ¬ (0 < d.strokes ∧ 0 < d.strokeWeight))
    (htag : isFlattenTagName d.name = false)
    (htext : d.ntype ≠ .TEXT) :
    (extractClassify d true).solidFill = f.color ∧
    (extractClassify d false).solidFill = f.color ∧
    (extractClassify d true).queued = false ∧
    (extractClassify d true).isHybrid = false ∧
    (extractClassify d false).queued = true ∧
    (extractClassify d false).isFlattened = true ∧
    (∀ (t n0 : RawNode), n0 ∈ rawNodes t →
      n0.data = d → n0.children ≠ [] →
      (∀ m ∈ rawNodes t, rasterHashOf m.data.id = rasterHashOf d.id → m = n0) →
      rasterHashOf d.id ∉ (extractWalk t []).2) := by
  have hq : (extractClassify d true).queued = false := by
    simp [extractClassify, hvf, hsolid, hstroke, htag, htext]
  refine ⟨?_, ?_, hq, ?_, ?_, ?_, ?_⟩
  · simp [extractClassify, hvf, hsolid, hstroke, htag, htext]
  · simp [extractClassify, hvf, hsolid, hstroke, htag, htext]
  · simp [extractClassify, hvf, hsolid, hstroke, htag, htext]
  · simp [extractClassify, hvf, hsolid, hstroke, htag, htext]
  · simp [extractClassify, hvf, hsolid, hstroke, htag, htext]
  · intro t n0 hn0 hdata hchild hinj hmem
    obtain ⟨m, hm, heq, hqm⟩ := extractWalk_rasters_sound t [] _ hmem
    have hmn0 : m = n0 := hinj m hm heq.symm
    subst hmn0
    rw [hdata] at hqm
    have hne : (!m.children.isEmpty) = true := by
      cases hcs : m.children with
      | nil => exact absurd hcs hchild
      | cons c cs => simp [List.isEmpty]
    rw [hne] at hqm
    rw [hq] at hqm
    cases hqm

/-- Witness for the amended C3 theorem at `solidContainer`: the container is
not queued and its raster hash is absent from the walk's raster output. -/
theorem solid_fill_container_skips_raster_witness :
    (extractClassify solidContainer.data true).queued = false ∧
    rasterHashOf solidContainer.data.id ∉ (extractWalk solidContainer []).2 := by
  have h := solid_fill_container_skips_raster solidContainer.data
    { ftype := .SOLID, visible := true, opacity := some 1,
      color := some ⟨1, 0, 0, 1⟩, imageHash := none }
    (by decide) (by decide) (by decide) (by decide) (by decide)
  refine ⟨h.2.2.1, ?_⟩
  apply h.2.2.2.2.2.2 solidContainer solidContainer
  · have hmem : solidContainer ∈ rawNodes solidContainer := by
      simp only [solidContainer, rawNodes_mk]
      exact List.mem_cons_self _ _
    exact hmem
  · rfl
  · simp [solidContainer]
  · intro m hm heq
    simp only [solidContainer, rawNodes_mk] at hm
    rcases List.mem_cons.mp hm with hm | hm
    · rw [hm]
      rfl
    · exfalso
      have hm2 : m ∈ rawNodes solidLeaf := by
        simpa using hm
      have hmL : m = solidLeaf := by
        simpa [solidLeaf, rawNodes_mk] using hm2
      rw [hmL] at heq
      exact absurd heq (by decide)

/-! ### C7 — diff of a two-node tree against a two-entry snapshot -/

/-- C7: for a current tree with nodes A (root) and B (child of A), where A's
fingerprint matches its previous entry and B has no entry, and a previous
snapshot with entries A and C where C's id is absent from the current tree:
the diff returns changed = {}, unchanged = {A}, added = {B}, removed = {C},
and the reuse map holds exactly A's previous asset id. -/
theorem computeDiff_two_node (hashFn : FNode → String) (dA dB : NData)
    (eA eC : PreviousManifestEntry) (cId : String)
    (hAvis : dA.visible = true) (hBvis : dB.visible = true)
    (hAB : dA.id ≠ dB.id) (hCA : cId ≠ dA.id) (hCB : cId ≠ dB.id)
    (hAhash : eA.hash = hashFn (FNode.mk dA [FNode.mk dB []])) :
    (computeDiff hashFn (FNode.mk dA [FNode.mk dB []])
        (some { entries := [(dA.id, eA), (cId, eC)] })).changed = [] ∧
    (computeDiff hashFn (FNode.mk dA [FNode.mk dB []])
        (some { entries := [(dA.id, eA), (cId, eC)] })).unchanged = [dA.id] ∧
    (computeDiff hashFn (FNode.mk dA [FNode.mk dB []])
        (some { entries := [(dA.id, eA), (cId, eC)] })).added = [dB.id] ∧
    (computeDiff hashFn (FNode.mk dA [FNode.mk dB []])
        (some { entries := [(dA.id, eA), (cId, eC)] })).removed = [cId] ∧
    (computeDiff hashFn (FNode.mk dA [FNode.mk dB []])
        (some { entries := [(dA.id, eA), (cId, eC)] })).reuseMap
      = [(dA.id, eA.assetId)] := by
  have hcoll : collectNodesWithHashes hashFn (FNode.mk dA [FNode.mk dB []]) [] =
      [(dA.id, hashFn (FNode.mk dA [FNode.mk dB []])),
       (dB.id, hashFn (FNode.mk dB []))] := by
    rw [collectNodesWithHashes]
    simp [hAvis, hBvis, collectNodesListWithHashes, collectNodesWithHashes, objSet, hAB]
  have hfold : diffFold [(dA.id, eA), (cId, eC)]
      [(dA.id, hashFn (FNode.mk dA [FNode.mk dB []])),
       (dB.id, hashFn (FNode.mk dB []))]
      { changed := [], unchanged := [], added := [], reuseMap := [] } =
      { changed := [], unchanged := [dA.id], added := [dB.id],
        reuseMap := [(dA.id, eA.assetId)] } := by
    simp [diffFold, diffStep, objGet, hAB, hCB, ← hAhash, objSet]
  refine ⟨?_, ?_, ?_, ?_, ?_⟩
  all_goals simp [computeDiff, hcoll, hfold, objGet, Ne.symm hCA, Ne.symm hCB, hAB]

/-- Witness for C7 at the concrete two-node tree and snapshot. -/
theorem computeDiff_two_node_witness :
    (computeDiff demoHashFn diffNodeA (some demoPrev)).changed = [] ∧
    (computeDiff demoHashFn diffNodeA (some demoPrev)).unchanged = ["A"] ∧
    (computeDiff demoHashFn diffNodeA (some demoPrev)).added = ["B"] ∧
    (computeDiff demoHashFn diffNodeA (some demoPrev)).removed = ["C"] ∧
    (computeDiff demoHashFn diffNodeA (some demoPrev)).reuseMap
      = [("A", "rbxassetid://111")] :=
  computeDiff_two_node demoHashFn diffNodeA.data diffNodeB.data
    { nodeId := "A", name := "Panel", hash := demoHashFn diffNodeA,
      assetId := "rbxassetid://111", width := 0, height := 0 }
    { nodeId := "C", name := "Gone", hash := "h_C",
      assetId := "rbxassetid://222", width := 0, height := 0 } "C"
    rfl rfl (by decide) (by decide) (by decide) rfl

/-! ### C10 — invisible subtrees and the diff -/

/-- `collectAllNodeIds` in its natural form, with the `attach` removed. -/
@[simp] theorem collectAllNodeIds_mk (d : NData) (cs : List FNode) :
    collectAllNodeIds (.mk d cs) = d.id :: (cs.map collectAllNodeIds).flatten := by
  simp only [collectAllNodeIds]
  rw [List.attach_map_coe]

/-- `treeNodes` in its natural form, with the `attach` removed. -/
@[simp] theorem treeNodes_mk (d : NData) (cs : List FNode) :
    treeNodes (.mk d cs) = .mk d cs :: (cs.map treeNodes).flatten := by
  simp only [treeNodes]
  rw [List.attach_map_coe]

/-- `visibleIds` in its natural form, with the `attach` removed. -/
theorem visibleIds_mk (d : NData) (cs : List FNode) :
    visibleIds (.mk d cs) =
      if d.visible = false then [] else d.id :: (cs.map visibleIds).flatten := by
  simp only [visibleIds]
  by_cases hv : d.visible = false
  · rw [if_pos hv, if_pos hv]
  · rw [if_neg hv, if_neg hv, List.attach_map_coe]

/-- Ids of a subtree's nodes are ids of the tree. -/
theorem treeNodes_collect_sub (t : FNode) :
    ∀ m ∈ treeNodes t, ∀ id ∈ collectAllNodeIds m, id ∈ collectAllNodeIds t := by
  induction t using FNode.inductionOn with
  | step d cs ih =>
    intro m hm id hid
    rw [treeNodes_mk] at hm
    rcases List.mem_cons.mp hm with hm | hm
    · rw [hm] at hid
      exact hid
    · obtain ⟨lst, hlst, hm2⟩ := List.mem_flatten.mp hm
      obtain ⟨c, hc, rfl⟩ := List.mem_map.mp hlst
      have hsub := ih c hc m hm2 id hid
      rw [collectAllNodeIds_mk]
      exact List.mem_cons_of_mem _
        (List.mem_flatten.mpr ⟨collectAllNodeIds c, List.mem_map_of_mem _ hc, hsub⟩)

/-- A node's id is among the collected ids of any tree containing it. -/
theorem mem_treeNodes_id (t : FNode) (m : FNode) (hm : m ∈ treeNodes t) :
    m.data.id ∈ collectAllNodeIds t := by
  apply treeNodes_collect_sub t m hm
  cases m with
  | mk dm csm => simp

/-- Visible-reachable ids are ids of the tree. -/
theorem visibleIds_sub_collect (t : FNode) :
    ∀ id ∈ visibleIds t, id ∈ collectAllNodeIds t := by
  induction t using FNode.inductionOn with
  | step d cs ih =>
    intro id hid
    rw [visibleIds_mk] at hid
    by_cases hv : d.visible = false
    · rw [if_pos hv] at hid
      cases hid
    · rw [if_neg hv] at hid
      rw [collectAllNodeIds_mk]
      rcases List.mem_cons.mp hid with hid | hid
      · exact hid ▸ List.mem_cons_self _ _
      · obtain ⟨lst, hlst, hid2⟩ := List.mem_flatten.mp hid
        obtain ⟨c, hc, rfl⟩ := List.mem_map.mp hlst
        exact List.mem_cons_of_mem _
          (List.mem_flatten.mpr ⟨collectAllNodeIds c, List.mem_map_of_mem _ hc, ih c hc id hid2⟩)

/-- Pointwise version of `visibleIds_sub_collect` over a child list. -/
theorem visibleIds_flatten_sub (l : List FNode) :
    ∀ id ∈ (l.map visibleIds).flatten, id ∈ (l.map collectAllNodeIds).flatten := by
  intro id hid
  obtain ⟨lst, hlst, hid2⟩ := List.mem_flatten.mp hid
  obtain ⟨c, hc, rfl⟩ := List.mem_map.mp hlst
  exact List.mem_flatten.mpr
    ⟨collectAllNodeIds c, List.mem_map_of_mem _ hc, visibleIds_sub_collect c id hid2⟩

/-- List-level core of the invisible-subtree argument: with all tree ids
distinct, an id below an invisible node of one child cannot be
visible-reachable in any child. -/
theorem invisible_list_level :
    ∀ (cs : List FNode),
      (∀ c ∈ cs, (collectAllNodeIds c).Nodup →
        ∀ inv ∈ treeNodes c, inv.data.visible = false →
        ∀ id ∈ collectAllNodeIds inv, id ∉ visibleIds c) →
      ((cs.map collectAllNodeIds).flatten).Nodup →
      ∀ c ∈ cs, ∀ inv ∈ treeNodes c, inv.data.visible = false →
      ∀ id ∈ collectAllNodeIds inv, id ∉ (cs.map visibleIds).flatten := by
  intro cs
  induction cs with
  | nil =>
    intro _ _ c hc
    cases hc
  | cons c0 rest ihl =>
    intro ihs hnodup c hc inv hinv hvis id hid hmem
    rw [List.map_cons, List.flatten_cons] at hnodup
    rw [List.nodup_append] at hnodup
    rw [List.map_cons, List.flatten_cons, List.mem_append] at hmem
    rcases List.mem_cons.mp hc with hc0 | hcr
    · subst hc0
      have hidc : id ∈ collectAllNodeIds c := treeNodes_collect_sub c inv hinv id hid
      rcases hmem with hmem | hmem
      · exact ihs c (List.mem_cons_self _ _) hnodup.1 inv hinv hvis id hid hmem
      · have hmem2 : id ∈ (rest.map collectAllNodeIds).flatten :=
          visibleIds_flatten_sub rest id hmem
        exact hnodup.2.2 hidc hmem2
    · have hidc : id ∈ (rest.map collectAllNodeIds).flatten :=
        List.mem_flatten.mpr ⟨collectAllNodeIds c, List.mem_map_of_mem _ hcr,
          treeNodes_collect_sub c inv hinv id hid⟩
      rcases hmem with hmem | hmem
      · exact hnodup.2.2 (visibleIds_sub_collect c0 id hmem) hidc
      · exact ihl (fun c2 hc2 => ihs c2 (List.mem_cons_of_mem _ hc2)) hnodup.2.1
          c hcr inv hinv hvis id hid hmem

/-- Core of C10: in a tree with distinct ids, any id inside an invisible
node's subtree is not visible-reachable. -/
theorem invisible_subtree_not_visible (t : FNode) :
    (collectAllNodeIds t).Nodup →
    ∀ inv ∈ treeNodes t, inv.data.visible = false →
    ∀ id ∈ collectAllNodeIds inv, id ∉ visibleIds t := by
  induction t using FNode.inductionOn with
  | step d cs ih =>
    intro hnodup inv hinv hinvvis id hid hidvis
    rw [visibleIds_mk] at hidvis
    by_cases hv : d.visible = false
    · rw [if_pos hv] at hidvis
      cases hidvis
    · rw [if_neg hv] at hidvis
      rw [treeNodes_mk] at hinv
      rw [collectAllNodeIds_mk, List.nodup_cons] at hnodup
      rcases List.mem_cons.mp hinv with hinv | hinv
      · apply hv
        rw [hinv] at hinvvis
        simpa using hinvvis
      · obtain ⟨lst, hlst, hm2⟩ := List.mem_flatten.mp hinv
        obtain ⟨c, hc, rfl⟩ := List.mem_map.mp hlst
        have hidc : id ∈ (cs.map collectAllNodeIds).flatten :=
          List.mem_flatten.mpr ⟨collectAllNodeIds c, List.mem_map_of_mem _ hc,
            treeNodes_collect_sub c inv hm2 id hid⟩
        rcases List.mem_cons.mp hidvis with hidv | hidv
        · exact hnodup.1 (hidv ▸ hidc)
        · exact invisible_list_level cs
            (fun c2 hc2 hnd2 => ih c2 hc2 hnd2) hnodup.2
            c hc inv hm2 hinvvis id hid hidv

/-- Decomposition of a lookup after a `Map.set`. -/
theorem objGet_objSet_isSome {α : Type} (m : List (String × α)) (k q : String) (v : α)
    (h : (objGet (objSet m k v) q).isSome = true) :
    q = k ∨ (objGet m q).isSome = true := by
  by_cases hqk : q = k
  · exact Or.inl hqk
  · right
    rw [objGet_objSet_ne m k q v hqk] at h
    exact h

mutual

/-- Every id recorded by `collectNodesWithHashes` was in the accumulator or
is visible-reachable. -/
theorem collect_keys_sub (hashFn : FNode → String) :
    ∀ (t : FNode) (acc : List (String × String)) (id : String),
      (objGet (collectNodesWithHashes hashFn t acc) id).isSome = true →
      (objGet acc id).isSome = true ∨ id ∈ visibleIds t
  | .mk d cs, acc, id => by
    intro hsome
    by_cases hv : d.visible = false
    · rw [collectNodesWithHashes, if_pos hv] at hsome
      exact Or.inl hsome
    · rw [collectNodesWithHashes, if_neg hv] at hsome
      rcases collect_list_keys_sub hashFn cs _ id hsome with hacc | hvisr
      · rcases objGet_objSet_isSome acc d.id id _ hacc with heq | hacc2
        · right
          rw [visibleIds_mk, if_neg hv, heq]
          exact List.mem_cons_self _ _
        · exact Or.inl hacc2
      · right
        rw [visibleIds_mk, if_neg hv]
        exact List.mem_cons_of_mem _ hvisr
  termination_by t _ _ => sizeOf t
  decreasing_by
    simp only [FNode.mk.sizeOf_spec]
    omega

/-- List form of `collect_keys_sub`. -/
theorem collect_list_keys_sub (hashFn : FNode → String) :
    ∀ (l : List FNode) (acc : List (String × String)) (id : String),
      (objGet (collectNodesListWithHashes hashFn l acc) id).isSome = true →
      (objGet acc id).isSome = true ∨ id ∈ (l.map visibleIds).flatten
  | [], acc, id => by
    intro hsome
    rw [collectNodesListWithHashes] at hsome
    exact Or.inl hsome
  | c :: rest, acc, id => by
    intro hsome
    rw [collectNodesListWithHashes] at hsome
    rcases collect_list_keys_sub hashFn rest _ id hsome with hacc | hvisr
    · rcases collect_keys_sub hashFn c acc id hacc with hacc2 | hvisc
      · exact Or.inl hacc2
      · right
        rw [List.map_cons, List.flatten_cons, List.mem_append]
        exact Or.inl hvisc
    · right
      rw [List.map_cons, List.flatten_cons, List.mem_append]
      exact Or.inr hvisr
  termination_by l _ _ => sizeOf l
  decreasing_by
    all_goals simp only [List.cons.sizeOf_spec]
    all_goals omega

end

/-- A lookup misses exactly when the key is absent. -/
theorem objGet_eq_none_iff {α : Type} (m : List (String × α)) (k : String) :
    objGet m k = none ↔ k ∉ m.map Prod.fst := by
  induction m with
  | nil => simp [objGet]
  | cons p rest ih =>
    obtain ⟨k', v'⟩ := p
    by_cases hk : k' = k
    · subst hk
      simp [objGet]
    · simp [objGet, hk, ih, Ne.symm hk]

/-- Every id placed in a `diffFold` output component was already in the
accumulator or is a key of the folded entries. -/
theorem diffFold_mem_sub (prevEntries : List (String × PreviousManifestEntry)) :
    ∀ (entries : List (String × String)) (acc : DiffAcc),
      (∀ id, id ∈ (diffFold prevEntries entries acc).changed →
        id ∈ acc.changed ∨ id ∈ entries.map Prod.fst) ∧
      (∀ id, id ∈ (diffFold prevEntries entries acc).unchanged →
        id ∈ acc.unchanged ∨ id ∈ entries.map Prod.fst) ∧
      (∀ id, id ∈ (diffFold prevEntries entries acc).added →
        id ∈ acc.added ∨ id ∈ entries.map Prod.fst) ∧
      (∀ id, (objGet (diffFold prevEntries entries acc).reuseMap id).isSome = true →
        (objGet acc.reuseMap id).isSome = true ∨ id ∈ entries.map Prod.fst) := by
  intro entries
  induction entries with
  | nil =>
    intro acc
    refine ⟨?_, ?_, ?_, ?_⟩ <;> intro id h <;> exact Or.inl h
  | cons e rest ih =>
    intro acc
    have hstep : diffFold prevEntries (e :: rest) acc =
        diffFold prevEntries rest (diffStep prevEntries acc e) := rfl
    have hch : (diffStep prevEntries acc e).changed = acc.changed ∨
        (diffStep prevEntries acc e).changed = acc.changed ++ [e.1] := by
      unfold diffStep
      rcases objGet prevEntries e.1 with _ | pe
      · exact Or.inl rfl
      · by_cases hh : pe.hash ≠ e.2 <;> simp [hh]
    have hun : (diffStep prevEntries acc e).unchanged = acc.unchanged ∨
        (diffStep prevEntries acc e).unchanged = acc.unchanged ++ [e.1] := by
      unfold diffStep
      rcases objGet prevEntries e.1 with _ | pe
      · exact Or.inl rfl
      · by_cases hh : pe.hash ≠ e.2 <;> simp [hh]
    have had : (diffStep prevEntries acc e).added = acc.added ∨
        (diffStep prevEntries acc e).added = acc.added ++ [e.1] := by
      unfold diffStep
      rcases objGet prevEntries e.1 with _ | pe
      · exact Or.inr rfl
      · by_cases hh : pe.hash ≠ e.2 <;> simp [hh]
    have hru : (diffStep prevEntries acc e).reuseMap = acc.reuseMap ∨
        ∃ v, (diffStep prevEntries acc e).reuseMap = objSet acc.reuseMap e.1 v := by
      unfold diffStep
      rcases objGet prevEntries e.1 with _ | pe
      · exact Or.inl rfl
      · by_cases hh : pe.hash ≠ e.2
        · simp [hh]
        · simp [hh]
    refine ⟨?_, ?_, ?_, ?_⟩
    · intro id h
      rw [hstep] at h
      rcases ((ih (diffStep prevEntries acc e)).1 id h) with h2 | h2
      · rcases hch with hc | hc
        · rw [hc] at h2
          exact Or.inl h2
        · rw [hc, List.mem_append] at h2
          rcases h2 with h2 | h2
          · exact Or.inl h2
          · right
            rw [List.map_cons, List.mem_cons]
            exact Or.inl (List.mem_singleton.mp h2)
      · right
        rw [List.map_cons, List.mem_cons]
        exact Or.inr h2
    · intro id h
      rw [hstep] at h
      rcases ((ih (diffStep prevEntries acc e)).2.1 id h) with h2 | h2
      · rcases hun with hc | hc
        · rw [hc] at h2
          exact Or.inl h2
        · rw [hc, List.mem_append] at h2
          rcases h2 with h2 | h2
          · exact Or.inl h2
          · right
            rw [List.map_cons, List.mem_cons]
            exact Or.inl (List.mem_singleton.mp h2)
      · right
        rw [List.map_cons, List.mem_cons]
        exact Or.inr h2
    · intro id h
      rw [hstep] at h
      rcases ((ih (diffStep prevEntries acc e)).2.2.1 id h) with h2 | h2
      · rcases had with hc | hc
        · rw [hc] at h2
          exact Or.inl h2
        · rw [hc, List.mem_append] at h2
          rcases h2 with h2 | h2
          · exact Or.inl h2
          · right
            rw [List.map_cons, List.mem_cons]
            exact Or.inl (List.mem_singleton.mp h2)
      · right
        rw [List.map_cons, List.mem_cons]
        exact Or.inr h2
    · intro id h
      rw [hstep] at h
      rcases ((ih (diffStep prevEntries acc e)).2.2.2 id h) with h2 | h2
      · rcases hru with hc | hc
        · rw [hc] at h2
          exact Or.inl h2
        · obtain ⟨v, hv⟩ := hc
          rw [hv] at h2
          rcases objGet_objSet_isSome acc.reuseMap e.1 id v h2 with heq | h3
          · right
            rw [List.map_cons, List.mem_cons]
            exact Or.inl heq
          · exact Or.inl h3
      · right
        rw [List.map_cons, List.mem_cons]
        exact Or.inr h2

/-- C10: with a successfully loaded previous manifest and distinct node ids,
every node of an invisible node's subtree is excluded from changed,
unchanged, added, and the reuse map; its id appears in removed exactly when
the previous snapshot has an entry for it. -/
theorem computeDiff_invisible_subtree_excluded (hashFn : FNode → String)
    (t : FNode) (prev : PreviousManifest)
    (hnodup : (collectAllNodeIds t).Nodup)
    (inv : FNode) (hinv : inv ∈ treeNodes t) (hinvis : inv.data.visible = false)
    (dn : FNode) (hdn : dn ∈ treeNodes inv) :
    dn.data.id ∉ (computeDiff hashFn t (some prev)).changed ∧
    dn.data.id ∉ (computeDiff hashFn t (some prev)).unchanged ∧
    dn.data.id ∉ (computeDiff hashFn t (some prev)).added ∧
    objGet (computeDiff hashFn t (some prev)).reuseMap dn.data.id = none ∧
    (dn.data.id ∈ (computeDiff hashFn t (some prev)).removed ↔
      dn.data.id ∈ prev.entries.map Prod.fst) := by
  have hid_in_inv : dn.data.id ∈ collectAllNodeIds inv := mem_treeNodes_id inv dn hdn
  have hnotvis : dn.data.id ∉ visibleIds t :=
    invisible_subtree_not_visible t hnodup inv hinv hinvis dn.data.id hid_in_inv
  have hnone : objGet (collectNodesWithHashes hashFn t []) dn.data.id = none := by
    cases hob : objGet (collectNodesWithHashes hashFn t []) dn.data.id with
    | none => rfl
    | some v =>
      exfalso
      have hsome : (objGet (collectNodesWithHashes hashFn t []) dn.data.id).isSome = true := by
        rw [hob]
        rfl
      rcases collect_keys_sub hashFn t [] dn.data.id hsome with habs | hvis
      · simp [objGet] at habs
      · exact hnotvis hvis
  have hkeys : dn.data.id ∉ (collectNodesWithHashes hashFn t []).map Prod.fst :=
    (objGet_eq_none_iff _ _).mp hnone
  have hfold := diffFold_mem_sub prev.entries (collectNodesWithHashes hashFn t [])
    { changed := [], unchanged := [], added := [], reuseMap := [] }
  refine ⟨?_, ?_, ?_, ?_, ?_⟩
  · intro hmem
    rcases hfold.1 dn.data.id hmem with h | h
    · cases h
    · exact hkeys h
  · intro hmem
    rcases hfold.2.1 dn.data.id hmem with h | h
    · cases h
    · exact hkeys h
  · intro hmem
    rcases hfold.2.2.1 dn.data.id hmem with h | h
    · cases h
    · exact hkeys h
  · cases hob : objGet (computeDiff hashFn t (some prev)).reuseMap dn.data.id with
    | none => rfl
    | some v =>
      exfalso
      have hsome : (objGet (diffFold prev.entries (collectNodesWithHashes hashFn t [])
          { changed := [], unchanged := [], added := [], reuseMap := [] }).reuseMap
          dn.data.id).isSome = true := by
        have : (computeDiff hashFn t (some prev)).reuseMap =
            (diffFold prev.entries (collectNodesWithHashes hashFn t [])
              { changed := [], unchanged := [], added := [], reuseMap := [] }).reuseMap := rfl
        rw [← this, hob]
        rfl
      rcases hfold.2.2.2 dn.data.id hsome with h | h
      · simp [objGet] at h
      · exact hkeys h
  · have hrem : (computeDiff hashFn t (some prev)).removed =
        (prev.entries.map Prod.fst).filter
          (fun nodeId => (objGet (collectNodesWithHashes hashFn t []) nodeId).isNone) := rfl
    rw [hrem, List.mem_filter]
    constructor
    · intro h
      exact h.1
    · intro h
      refine ⟨h, ?_⟩
      rw [hnone]
      rfl

/-- Witness for C10 at the concrete tree with invisible node X: X is excluded
from changed/unchanged/added and the reuse map, and lands in removed since
the previous snapshot knows it. -/
theorem computeDiff_invisible_subtree_excluded_witness :
    "X" ∉ (computeDiff demoHashFn invisRoot (some invisPrev)).added ∧
    "X" ∈ (computeDiff demoHashFn invisRoot (some invisPrev)).removed := by
  have h := computeDiff_invisible_subtree_excluded demoHashFn invisRoot invisPrev
    (by simp [invisRoot, invisNodeX, invisNodeGrand])
    invisNodeX (by simp [invisRoot, invisNodeX, invisNodeGrand])
    rfl invisNodeX (by simp [invisNodeX])
  exact ⟨h.2.2.1, h.2.2.2.2.mpr (by simp [invisPrev, invisNodeX])⟩

/-! ### C2 — persistence of cache entries (code bug) -/

/-- C2 evidence: on `crashManifest` (cache starts empty, `hash_a` uploads
successfully, `hash_b` has no exported data) the run aborts with the
fail-fast error and its event trace is exactly one upload with NO
`saveCache` event: `saveImageCache` is called only after the whole loop, so
the successful upload of `hash_a` made before the abort is never persisted —
contradicting the claim that each new cache entry is written to persistent
storage before the resolver proceeds to the next hash. -/
theorem resolveImages_crash_loses_cache_entries :
    (resolveImages alwaysUpload crashExported [] crashManifest).1 =
      [UpEvent.upload "hash_a"] ∧
    (resolveImages alwaysUpload crashExported [] crashManifest).2 =
      .error (.missingData "hash_b") ∧
    UpEvent.saveCache ∉ (resolveImages alwaysUpload crashExported [] crashManifest).1 := by
  refine ⟨?_, ?_, ?_⟩
  · simp [resolveImages, crashManifest, resolveLoop, objGet, crashExported,
      alwaysUpload, backfillRasterHashes, buildRasterKeyMap, rasterKeyNodeId, objSet]
  · simp [resolveImages, crashManifest, resolveLoop, objGet, crashExported,
      alwaysUpload, backfillRasterHashes, buildRasterKeyMap, rasterKeyNodeId, objSet]
  · simp [resolveImages, crashManifest, resolveLoop, objGet, crashExported,
      alwaysUpload, backfillRasterHashes, buildRasterKeyMap, rasterKeyNodeId, objSet]


/-! ### Toolkit for the dedup proof: fold extrema, sorted medians, enums -/

theorem le_foldl_max (l : List ℚ) : ∀ v : ℚ,
    v ≤ l.foldl max v ∧ ∀ x ∈ l, x ≤ l.foldl max v := by
  induction l with
  | nil => intro v; exact ⟨le_refl v, by simp⟩
  | cons a rest ih =>
    intro v
    simp only [List.foldl_cons]
    refine ⟨le_trans (le_max_left v a) (ih (max v a)).1, ?_⟩
    intro x hx
    rcases List.mem_cons.mp hx with hxa | hxr
    · subst hxa
      exact le_trans (le_max_right v x) (ih (max v x)).1
    · exact (ih (max v a)).2 x hxr

theorem foldl_max_mem (l : List ℚ) : ∀ v : ℚ,
    l.foldl max v = v ∨ l.foldl max v ∈ l := by
  induction l with
  | nil => intro v; exact Or.inl rfl
  | cons a rest ih =>
    intro v
    simp only [List.foldl_cons]
    rcases ih (max v a) with h | h
    · rw [h]
      rcases max_choice v a with h2 | h2
      · exact Or.inl h2
      · exact Or.inr (by rw [h2]; exact List.mem_cons_self a rest)
    · exact Or.inr (List.mem_cons_of_mem a h)

theorem foldl_min_le (l : List ℚ) : ∀ v : ℚ,
    l.foldl min v ≤ v ∧ ∀ x ∈ l, l.foldl min v ≤ x := by
  induction l with
  | nil => intro v; exact ⟨le_refl v, by simp⟩
  | cons a rest ih =>
    intro v
    simp only [List.foldl_cons]
    refine ⟨le_trans (ih (min v a)).1 (min_le_left v a), ?_⟩
    intro x hx
    rcases List.mem_cons.mp hx with hxa | hxr
    · subst hxa
      exact le_trans (ih (min v x)).1 (min_le_right v x)
    · exact (ih (min v a)).2 x hxr

theorem foldl_min_mem (l : List ℚ) : ∀ v : ℚ,
    l.foldl min v = v ∨ l.foldl min v ∈ l := by
  induction l with
  | nil => intro v; exact Or.inl rfl
  | cons a rest ih =>
    intro v
    simp only [List.foldl_cons]
    rcases ih (min v a) with h | h
    · rw [h]
      rcases min_choice v a with h2 | h2
      · exact Or.inl h2
      · exact Or.inr (by rw [h2]; exact List.mem_cons_self a rest)
    · exact Or.inr (List.mem_cons_of_mem a h)

/-- `Math.max(...)` of a nonempty list is a member and an upper bound. -/
theorem maxQ_spec (l : List ℚ) (h : l ≠ []) :
    maxQ l ∈ l ∧ ∀ x ∈ l, x ≤ maxQ l := by
  cases l with
  | nil => cases h rfl
  | cons v rest =>
    rw [maxQ]
    constructor
    · rcases foldl_max_mem rest v with h1 | h1
      · rw [h1]; exact List.mem_cons_self v rest
      · exact List.mem_cons_of_mem v h1
    · intro x hx
      rcases List.mem_cons.mp hx with hxa | hxr
      · subst hxa; exact (le_foldl_max rest x).1
      · exact (le_foldl_max rest v).2 x hxr

/-- `Math.min(...)` of a nonempty list is a member and a lower bound. -/
theorem minQ_spec (l : List ℚ) (h : l ≠ []) :
    minQ l ∈ l ∧ ∀ x ∈ l, minQ l ≤ x := by
  cases l with
  | nil => cases h rfl
  | cons v rest =>
    rw [minQ]
    constructor
    · rcases foldl_min_mem rest v with h1 | h1
      · rw [h1]; exact List.mem_cons_self v rest
      · exact List.mem_cons_of_mem v h1
    · intro x hx
      rcases List.mem_cons.mp hx with hxa | hxr
      · subst hxa; exact (foldl_min_le rest x).1
      · exact (foldl_min_le rest v).2 x hxr

/-- An element of a sorted list at position `j` is at least `lo` when at most
`j` elements are below `lo`. -/
theorem sorted_getD_ge (s : List ℚ) (hs : List.Sorted (· ≤ ·) s) (j : Nat)
    (hj : j < s.length) (lo : ℚ)
    (hcount : s.countP (fun v => decide (v < lo)) ≤ j) :
    lo ≤ s.getD j 0 := by
  by_contra hlt
  push_neg at hlt
  rw [List.getD_eq_getElem s 0 hj] at hlt
  have hall : ∀ x ∈ s.take (j + 1), decide (x < lo) = true := by
    intro x hx
    obtain ⟨i, hi, hxi⟩ := List.mem_iff_getElem.mp hx
    have hi9 : i < s.length := by
      rw [List.length_take] at hi
      omega
    have hij : i ≤ j := by
      rw [List.length_take] at hi
      omega
    have hgetEq : (s.take (j + 1))[i] = s[i] := List.getElem_take s
    have hle : s[i] ≤ s[j] := by
      have h2 := hs.rel_get_of_le (a := ⟨i, hi9⟩) (b := ⟨j, hj⟩) hij
      simpa [List.get_eq_getElem] using h2
    rw [← hxi, hgetEq]
    simp only [decide_eq_true_eq]
    linarith
  have hlen1 : (s.take (j + 1)).length = j + 1 := by
    rw [List.length_take]
    omega
  have hcnt1 : (s.take (j + 1)).countP (fun v => decide (v < lo)) = j + 1 := by
    rw [List.countP_eq_length.mpr hall, hlen1]
  have hsplit : s.countP (fun v => decide (v < lo)) =
      (s.take (j + 1)).countP (fun v => decide (v < lo)) +
      (s.drop (j + 1)).countP (fun v => decide (v < lo)) := by
    conv_lhs => rw [← List.take_append_drop (j + 1) s]
    rw [List.countP_append]
  omega

/-- An element of a sorted list at position `j` is at most `hi` when fewer
than `length - j` elements are above `hi`. -/
theorem sorted_getD_le (s : List ℚ) (hs : List.Sorted (· ≤ ·) s) (j : Nat)
    (hj : j < s.length) (hi : ℚ)
    (hcount : s.countP (fun v => decide (hi < v)) + j + 1 ≤ s.length) :
    s.getD j 0 ≤ hi := by
  by_contra hlt
  push_neg at hlt
  rw [List.getD_eq_getElem s 0 hj] at hlt
  have hall : ∀ x ∈ s.drop j, decide (hi < x) = true := by
    intro x hx
    obtain ⟨i, hi2, hxi⟩ := List.mem_iff_getElem.mp hx
    have hji : j + i < s.length := by
      rw [List.length_drop] at hi2
      omega
    have hgetEq : (s.drop j)[i] = s[j + i] := List.getElem_drop s
    have hle : s[j] ≤ s[j + i] := by
      have h2 := hs.rel_get_of_le (a := ⟨j, hj⟩) (b := ⟨j + i, hji⟩)
        (by simp : (⟨j, hj⟩ : Fin s.length) ≤ ⟨j + i, hji⟩)
      simpa [List.get_eq_getElem] using h2
    rw [← hxi, hgetEq]
    simp only [decide_eq_true_eq]
    linarith
  have hcnt1 : (s.drop j).countP (fun v => decide (hi < v)) = s.length - j := by
    rw [List.countP_eq_length.mpr hall, List.length_drop]
  have hsplit : s.countP (fun v => decide (hi < v)) =
      (s.take j).countP (fun v => decide (hi < v)) +
      (s.drop j).countP (fun v => decide (hi < v)) := by
    conv_lhs => rw [← List.take_append_drop j s]
    rw [List.countP_append]
  omega

/-- The median of a nonempty list is bracketed by any pair of bounds that cut
off at most half of the list on each side. -/
theorem medianOf_bounds (l : List ℚ) (lo hi : ℚ) (hne : l ≠ [])
    (hlo : l.countP (fun v => decide (v < lo)) ≤ l.length / 2)
    (hhi : l.countP (fun v => decide (hi < v)) + l.length / 2 + 1 ≤ l.length) :
    lo ≤ medianOf l ∧ medianOf l ≤ hi := by
  have hperm := List.perm_insertionSort (fun x1 x2 : ℚ => x1 ≤ x2) l
  have hsort := List.sorted_insertionSort (fun x1 x2 : ℚ => x1 ≤ x2) l
  have hlen : (sortQ l).length = l.length := by
    rw [sortQ]
    exact hperm.length_eq
  have hlenpos : 0 < l.length := List.length_pos.mpr hne
  have hj : (sortQ l).length / 2 < (sortQ l).length := by
    rw [hlen]
    omega
  have hclo : (sortQ l).countP (fun v => decide (v < lo)) =
      l.countP (fun v => decide (v < lo)) := by
    rw [sortQ]
    exact hperm.countP_eq _
  have hchi : (sortQ l).countP (fun v => decide (hi < v)) =
      l.countP (fun v => decide (hi < v)) := by
    rw [sortQ]
    exact hperm.countP_eq _
  constructor
  · refine sorted_getD_ge (sortQ l) hsort _ hj lo ?_
    rw [hclo, hlen]
    omega
  · refine sorted_getD_le (sortQ l) hsort _ hj hi ?_
    rw [hchi, hlen]
    omega

/-- The median of 8 values clustered within 3px of `w` plus one arbitrary
value stays within 3px of `w`. -/
theorem median_window (va vb : List ℚ) (z w : ℚ)
    (hlen : va.length + vb.length = 8)
    (hcl : ∀ u ∈ va ++ vb, |u - w| ≤ 3) :
    |medianOf (va ++ z :: vb) - w| ≤ 3 := by
  have hLlen : (va ++ z :: vb).length = 9 := by
    simp only [List.length_append, List.length_cons]
    omega
  have hLne : va ++ z :: vb ≠ [] := by
    intro h
    rw [h] at hLlen
    simp at hLlen
  have hA : ∀ u ∈ va, ¬ decide (u < w - 3) = true := by
    intro u hu
    have h1 := hcl u (List.mem_append_left _ hu)
    rw [abs_le] at h1
    simp only [decide_eq_true_eq, not_lt]
    linarith [h1.1]
  have hB : ∀ u ∈ vb, ¬ decide (u < w - 3) = true := by
    intro u hu
    have h1 := hcl u (List.mem_append_right _ hu)
    rw [abs_le] at h1
    simp only [decide_eq_true_eq, not_lt]
    linarith [h1.1]
  have hA2 : ∀ u ∈ va, ¬ decide (w + 3 < u) = true := by
    intro u hu
    have h1 := hcl u (List.mem_append_left _ hu)
    rw [abs_le] at h1
    simp only [decide_eq_true_eq, not_lt]
    linarith [h1.2]
  have hB2 : ∀ u ∈ vb, ¬ decide (w + 3 < u) = true := by
    intro u hu
    have h1 := hcl u (List.mem_append_right _ hu)
    rw [abs_le] at h1
    simp only [decide_eq_true_eq, not_lt]
    linarith [h1.2]
  have hcnt_lo : (va ++ z :: vb).countP (fun v => decide (v < w - 3)) ≤ 1 := by
    rw [List.countP_append, List.countP_cons]
    rw [List.countP_eq_zero.mpr hA, List.countP_eq_zero.mpr hB]
    split <;> omega
  have hcnt_hi : (va ++ z :: vb).countP (fun v => decide (w + 3 < v)) ≤ 1 := by
    rw [List.countP_append, List.countP_cons]
    rw [List.countP_eq_zero.mpr hA2, List.countP_eq_zero.mpr hB2]
    split <;> omega
  have hb := medianOf_bounds (va ++ z :: vb) (w - 3) (w + 3) hLne
    (by rw [hLlen]; omega) (by rw [hLlen]; omega)
  rw [abs_le]
  constructor <;> linarith [hb.1, hb.2]

/-- Mapping a function of the payload over an enumeration forgets the
indices. -/
theorem enumFrom_map_snd_f {α β : Type} (f : α → β) (n : Nat) (l : List α) :
    (List.enumFrom n l).map (fun p => f p.2) = l.map f := by
  rw [show (fun p : Nat × α => f p.2) = f ∘ Prod.snd from rfl, ← List.map_map,
    List.enumFrom_map_snd]

/-- The index of an enumeration member lies in the enumerated range. -/
theorem fst_bound_of_mem_enumFrom {α : Type} {q : Nat × α} {n : Nat}
    {l : List α} (h : q ∈ List.enumFrom n l) : n ≤ q.1 ∧ q.1 < n + l.length := by
  have h2 : q.1 ∈ List.map Prod.fst (List.enumFrom n l) := List.mem_map_of_mem _ h
  rw [List.enumFrom_map_fst] at h2
  exact List.mem_range'_1.mp h2

/-- The payload of an enumeration member is a member of the list. -/
theorem snd_mem_of_mem_enumFrom {α : Type} {q : Nat × α} {n : Nat}
    {l : List α} (h : q ∈ List.enumFrom n l) : q.2 ∈ l := by
  have h2 : q.2 ∈ List.map Prod.snd (List.enumFrom n l) := List.mem_map_of_mem _ h
  rwa [List.enumFrom_map_snd] at h2

/-- When every child carries the same text fingerprint, grouping appends each
child in order to the single group. -/
theorem buildGroupsAux_const (k : GKey) :
    ∀ (cs : List FNode) (i : Nat) (l : List GPair),
      (∀ c ∈ cs, groupKey c.data = some k) →
      buildGroupsAux i cs [(k, l)] = [(k, l ++ cs.enumFrom i)] := by
  intro cs
  induction cs with
  | nil => intro i l _; simp [buildGroupsAux]
  | cons c rest ih =>
    intro i l hk
    have hc := hk c (List.mem_cons_self c rest)
    rw [buildGroupsAux, hc]
    simp only []
    rw [show addToGroup [(k, l)] k (i, c) = [(k, l ++ [(i, c)])] by
      simp [addToGroup]]
    rw [ih (i + 1) (l ++ [(i, c)]) (fun c2 hc2 => hk c2 (List.mem_cons_of_mem c hc2))]
    rw [List.enumFrom_cons, List.append_assoc]
    simp

/-- When every child of a nonempty sibling list carries the same text
fingerprint, the grouping pass builds a single group holding the whole
enumerated sibling list. -/
theorem buildGroups_const (k : GKey) (cs : List FNode) (hne : cs ≠ [])
    (hk : ∀ c ∈ cs, groupKey c.data = some k) :
    buildGroups cs = [(k, cs.enum)] := by
  cases cs with
  | nil => cases hne rfl
  | cons c0 rest =>
    have hc := hk c0 (List.mem_cons_self c0 rest)
    rw [buildGroups, buildGroupsAux, hc]
    simp only [addToGroup]
    rw [buildGroupsAux_const k rest 1 [(0, c0)]
      (fun c hcm => hk c (List.mem_cons_of_mem c0 hcm))]
    rw [List.enum_cons]
    simp

/-- The dedup pass leaves a leaf node untouched. -/
theorem deduplicateTextStrokes_leaf (d : NData) :
    deduplicateTextStrokes (FNode.mk d []) = (FNode.mk d [], 0) := by
  rw [deduplicateTextStrokes]
  simp [dedupLevel, dedupChildren]


/-- Enumeration then x projection equals the plain x map. -/
theorem enumFrom_map_x (n : Nat) (l : List FNode) :
    List.map (fun p : GPair => p.2.data.x) (List.enumFrom n l) =
      l.map (fun c => c.data.x) :=
  enumFrom_map_snd_f (fun c => c.data.x) n l

/-- Enumeration then y projection equals the plain y map. -/
theorem enumFrom_map_y (n : Nat) (l : List FNode) :
    List.map (fun p : GPair => p.2.data.y) (List.enumFrom n l) =
      l.map (fun c => c.data.y) :=
  enumFrom_map_snd_f (fun c => c.data.y) n l

/-- Both filter halves of a split around a single failing middle element. -/
theorem filter_split_mid {α : Type} (p : α → Bool) (xs ys : List α) (m : α)
    (hx : ∀ q ∈ xs, p q = true) (hy : ∀ q ∈ ys, p q = true) (hm : p m = false) :
    (xs ++ m :: ys).filter p = xs ++ ys ∧
    (xs ++ m :: ys).filter (not ∘ p) = [m] := by
  constructor
  · rw [List.filter_append, List.filter_cons, List.filter_eq_self.mpr hx,
      List.filter_eq_self.mpr hy]
    simp [hm]
  · rw [List.filter_append, List.filter_cons,
      List.filter_eq_nil_iff.mpr (fun q hq => by simp [hx q hq]),
      List.filter_eq_nil_iff.mpr (fun q hq => by simp [hy q hq])]
    simp [hm]

/-- A filter that drops both sides and keeps only the middle element. -/
theorem filter_mid_only {α : Type} (p : α → Bool) (xs ys : List α) (m : α)
    (hx : ∀ q ∈ xs, p q = false) (hy : ∀ q ∈ ys, p q = false) (hm : p m = true) :
    (xs ++ m :: ys).filter p = [m] := by
  rw [List.filter_append, List.filter_cons,
    List.filter_eq_nil_iff.mpr (fun q hq => by simp [hx q hq]),
    List.filter_eq_nil_iff.mpr (fun q hq => by simp [hy q hq])]
  simp [hm]

/-- The spread of a nonempty pairwise 3px-clustered value list is between 0
and 3. -/
theorem spread_bounds (l : List ℚ) (hne : l ≠ [])
    (hcl : ∀ u ∈ l, ∀ v ∈ l, |u - v| ≤ 3) :
    0 ≤ maxQ l - minQ l ∧ maxQ l - minQ l ≤ 3 := by
  obtain ⟨hmaxmem, hmaxub⟩ := maxQ_spec l hne
  obtain ⟨hminmem, hminlb⟩ := minQ_spec l hne
  constructor
  · linarith [hminlb (maxQ l) hmaxmem]
  · have h := hcl (maxQ l) hmaxmem (minQ l) hminmem
    rw [abs_le] at h
    linarith [h.2]

/-- The code's `spread/2 > 0` guard agrees with the spec's `spread = 0`
wording for a nonnegative spread. -/
theorem thickness_case (s : ℚ) (h0 : 0 ≤ s) :
    (if s / 2 > 0 then ((⌈(s / 2 : ℚ)⌉ : ℤ) : ℚ) else 2) =
    (if s = 0 then 2 else ((⌈(s / 2 : ℚ)⌉ : ℤ) : ℚ)) := by
  rcases eq_or_lt_of_le h0 with heq | hpos
  · rw [if_neg (by rw [← heq]; norm_num), if_pos heq.symm]
  · rw [if_pos (div_pos hpos (by norm_num)), if_neg (ne_of_gt hpos)]

/-- Recursing into a single annotated leaf child changes nothing. -/
theorem dedupChildren_annot_leaf (d : NData) (th : ℚ) (col : Option FigmaColor) :
    dedupChildren [annotateSurvivor (FNode.mk d []) th col] =
      ([annotateSurvivor (FNode.mk d []) th col], 0) := by
  obtain ⟨d2, hd2⟩ : ∃ d2, annotateSurvivor (FNode.mk d []) th col = FNode.mk d2 [] :=
    ⟨_, rfl⟩
  rw [hd2, dedupChildren, deduplicateTextStrokes_leaf, dedupChildren]
  rfl

/-- **C6**: for a sibling list of 9 TEXT nodes sharing one content
fingerprint — 8 clustered pairwise within 3px and one leaf 20px away on an
axis carrying a visible gradient fill — the dedup pass reports exactly 8
removed duplicates and rewrites the sibling list to the single surviving
gradient outlier, annotated with the spec's inferred stroke thickness
`ceil(max(core x-spread, core y-spread) / 2)` (2px for a zero spread). -/
theorem deduplicateTextStrokes_collapses_group
    (pd : NData) (a b : List FNode) (out : FNode) (k : GKey)
    (hlen : (a ++ b).length = 8)
    (hkey : ∀ c ∈ a ++ out :: b, groupKey c.data = some k)
    (hunmarked : ∀ c ∈ a ++ out :: b, c.data.isStrokeDuplicate = false)
    (hleaf : out.children = [])
    (hclX : ∀ c ∈ a ++ b, ∀ c2 ∈ a ++ b, |c.data.x - c2.data.x| ≤ 3)
    (hclY : ∀ c ∈ a ++ b, ∀ c2 ∈ a ++ b, |c.data.y - c2.data.y| ≤ 3)
    (hfar : (∀ c ∈ a ++ b, 20 ≤ |out.data.x - c.data.x|) ∨
            (∀ c ∈ a ++ b, 20 ≤ |out.data.y - c.data.y|))
    (hgrad : hasGradientFill out = true) :
    (deduplicateTextStrokes (FNode.mk pd (a ++ out :: b))).2 = 8 ∧
    ∃ col, (deduplicateTextStrokes (FNode.mk pd (a ++ out :: b))).1 =
      FNode.mk pd [annotateSurvivor out (claimedThickness (a ++ b)) col] := by
  have hab : a.length + b.length = 8 := by
    simpa [List.length_append] using hlen
  have habne : a ++ b ≠ [] := by
    intro h
    rw [h] at hlen
    simp at hlen
  obtain ⟨c0, hc0⟩ : ∃ c, c ∈ a ++ b := List.exists_mem_of_ne_nil (a ++ b) habne
  have hgdec : (a ++ out :: b).enum = (List.enumFrom 0 a ++ (a.length, out) :: List.enumFrom (a.length + 1) b) := by
    show List.enumFrom 0 (a ++ out :: b) = _
    rw [List.enumFrom_append, List.enumFrom_cons]
    norm_num
  have hGlen : ((List.enumFrom 0 a ++ (a.length, out) :: List.enumFrom (a.length + 1) b)).length = 9 := by
    simp only [List.length_append, List.length_cons, List.enumFrom_length]
    omega
  have hGmapx : List.map (fun p => p.2.data.x) (List.enumFrom 0 a ++ (a.length, out) :: List.enumFrom (a.length + 1) b) = (a.map (fun c => c.data.x) ++ out.data.x :: b.map (fun c => c.data.x)) := by
    rw [List.map_append, List.map_cons, enumFrom_map_x, enumFrom_map_x]
  have hGmapy : List.map (fun p => p.2.data.y) (List.enumFrom 0 a ++ (a.length, out) :: List.enumFrom (a.length + 1) b) = (a.map (fun c => c.data.y) ++ out.data.y :: b.map (fun c => c.data.y)) := by
    rw [List.map_append, List.map_cons, enumFrom_map_y, enumFrom_map_y]
  have hmedXG : groupMedianX (List.enumFrom 0 a ++ (a.length, out) :: List.enumFrom (a.length + 1) b) = medianOf (a.map (fun c => c.data.x) ++ out.data.x :: b.map (fun c => c.data.x)) := by
    rw [groupMedianX, hGmapx]
  have hmedYG : groupMedianY (List.enumFrom 0 a ++ (a.length, out) :: List.enumFrom (a.length + 1) b) = medianOf (a.map (fun c => c.data.y) ++ out.data.y :: b.map (fun c => c.data.y)) := by
    rw [groupMedianY, hGmapy]
  have hmedX : |medianOf (a.map (fun c => c.data.x) ++ out.data.x :: b.map (fun c => c.data.x)) - c0.data.x| ≤ 3 := by
    refine median_window _ _ _ _ (by simp only [List.length_map]; omega) ?_
    intro u hu
    rw [← List.map_append] at hu
    obtain ⟨c, hc, hceq⟩ := List.mem_map.mp hu
    rw [← hceq]
    exact hclX c hc c0 hc0
  have hmedY : |medianOf (a.map (fun c => c.data.y) ++ out.data.y :: b.map (fun c => c.data.y)) - c0.data.y| ≤ 3 := by
    refine median_window _ _ _ _ (by simp only [List.length_map]; omega) ?_
    intro u hu
    rw [← List.map_append] at hu
    obtain ⟨c, hc, hceq⟩ := List.mem_map.mp hu
    rw [← hceq]
    exact hclY c hc c0 hc0
  have hmedX2 := abs_le.mp hmedX
  have hmedY2 := abs_le.mp hmedY
  have hmX6 : ∀ c ∈ a ++ b, |c.data.x - medianOf (a.map (fun c => c.data.x) ++ out.data.x :: b.map (fun c => c.data.x))| ≤ 6 := by
    intro c hc
    have h1 := abs_le.mp (hclX c hc c0 hc0)
    rw [abs_le]
    constructor <;> linarith [hmedX2.1, hmedX2.2, h1.1, h1.2]
  have hmY6 : ∀ c ∈ a ++ b, |c.data.y - medianOf (a.map (fun c => c.data.y) ++ out.data.y :: b.map (fun c => c.data.y))| ≤ 6 := by
    intro c hc
    have h1 := abs_le.mp (hclY c hc c0 hc0)
    rw [abs_le]
    constructor <;> linarith [hmedY2.1, hmedY2.2, h1.1, h1.2]
  have hPmid : ¬ (|out.data.x - medianOf (a.map (fun c => c.data.x) ++ out.data.x :: b.map (fun c => c.data.x))| ≤ 6 ∧
      |out.data.y - medianOf (a.map (fun c => c.data.y) ++ out.data.y :: b.map (fun c => c.data.y))| ≤ 6) := by
    rcases hfar with hfx | hfy
    · intro hcontra
      have h20 := hfx c0 hc0
      have htri := abs_sub_le out.data.x (medianOf (a.map (fun c => c.data.x) ++ out.data.x :: b.map (fun c => c.data.x))) c0.data.x
      have habs := abs_sub_comm (medianOf (a.map (fun c => c.data.x) ++ out.data.x :: b.map (fun c => c.data.x))) c0.data.x
      linarith [hcontra.1, hmedX, htri, h20,
        le_of_eq habs.symm]
    · intro hcontra
      have h20 := hfy c0 hc0
      have htri := abs_sub_le out.data.y (medianOf (a.map (fun c => c.data.y) ++ out.data.y :: b.map (fun c => c.data.y))) c0.data.y
      have habs := abs_sub_comm (medianOf (a.map (fun c => c.data.y) ++ out.data.y :: b.map (fun c => c.data.y))) c0.data.y
      linarith [hcontra.2, hmedY, htri, h20,
        le_of_eq habs.symm]
  have hPA : ∀ q ∈ (List.enumFrom 0 a),
      (decide (|q.2.data.x - groupMedianX (List.enumFrom 0 a ++ (a.length, out) :: List.enumFrom (a.length + 1) b)| ≤ 6 ∧
        |q.2.data.y - groupMedianY (List.enumFrom 0 a ++ (a.length, out) :: List.enumFrom (a.length + 1) b)| ≤ 6)) = true := by
    intro q hq
    have hqa : q.2 ∈ a := snd_mem_of_mem_enumFrom hq
    simp only [decide_eq_true_eq]
    rw [hmedXG, hmedYG]
    exact ⟨hmX6 q.2 (List.mem_append_left b hqa), hmY6 q.2 (List.mem_append_left b hqa)⟩
  have hPB : ∀ q ∈ (List.enumFrom (a.length + 1) b),
      (decide (|q.2.data.x - groupMedianX (List.enumFrom 0 a ++ (a.length, out) :: List.enumFrom (a.length + 1) b)| ≤ 6 ∧
        |q.2.data.y - groupMedianY (List.enumFrom 0 a ++ (a.length, out) :: List.enumFrom (a.length + 1) b)| ≤ 6)) = true := by
    intro q hq
    have hqb : q.2 ∈ b := snd_mem_of_mem_enumFrom hq
    simp only [decide_eq_true_eq]
    rw [hmedXG, hmedYG]
    exact ⟨hmX6 q.2 (List.mem_append_right a hqb), hmY6 q.2 (List.mem_append_right a hqb)⟩
  have hPM : (decide (|(((a.length, out) : GPair)).2.data.x - groupMedianX (List.enumFrom 0 a ++ (a.length, out) :: List.enumFrom (a.length + 1) b)| ≤ 6 ∧
      |(((a.length, out) : GPair)).2.data.y - groupMedianY (List.enumFrom 0 a ++ (a.length, out) :: List.enumFrom (a.length + 1) b)| ≤ 6)) = false := by
    simp only [decide_eq_false_iff_not]
    rw [hmedXG, hmedYG]
    exact hPmid
  have hpartG : groupPartition (List.enumFrom 0 a ++ (a.length, out) :: List.enumFrom (a.length + 1) b) = ((List.enumFrom 0 a) ++ (List.enumFrom (a.length + 1) b), [(a.length, out)]) := by
    obtain ⟨hf1, hf2⟩ := filter_split_mid
      (fun p : GPair => decide (|p.2.data.x - groupMedianX (List.enumFrom 0 a ++ (a.length, out) :: List.enumFrom (a.length + 1) b)| ≤ 6 ∧
        |p.2.data.y - groupMedianY (List.enumFrom 0 a ++ (a.length, out) :: List.enumFrom (a.length + 1) b)| ≤ 6))
      (List.enumFrom 0 a) (List.enumFrom (a.length + 1) b) (a.length, out) hPA hPB hPM
    rw [groupPartition, List.partition_eq_filter_filter, hf1, hf2]
  have hcoreMapX : List.map (fun p => p.2.data.x) ((List.enumFrom 0 a) ++ (List.enumFrom (a.length + 1) b)) =
      (a ++ b).map (fun c => c.data.x) := by
    rw [List.map_append, enumFrom_map_x, enumFrom_map_x, ← List.map_append]
  have hcoreMapY : List.map (fun p => p.2.data.y) ((List.enumFrom 0 a) ++ (List.enumFrom (a.length + 1) b)) =
      (a ++ b).map (fun c => c.data.y) := by
    rw [List.map_append, enumFrom_map_y, enumFrom_map_y, ← List.map_append]
  have hmapxne : (a ++ b).map (fun c => c.data.x) ≠ [] := by
    apply List.ne_nil_of_length_pos
    simp only [List.length_map]
    omega
  have hmapyne : (a ++ b).map (fun c => c.data.y) ≠ [] := by
    apply List.ne_nil_of_length_pos
    simp only [List.length_map]
    omega
  have hclXQ : ∀ u ∈ (a ++ b).map (fun c => c.data.x),
      ∀ v ∈ (a ++ b).map (fun c => c.data.x), |u - v| ≤ 3 := by
    intro u hu v hv
    obtain ⟨cu, hcu, hcueq⟩ := List.mem_map.mp hu
    obtain ⟨cv, hcv, hcveq⟩ := List.mem_map.mp hv
    rw [← hcueq, ← hcveq]
    exact hclX cu hcu cv hcv
  have hclYQ : ∀ u ∈ (a ++ b).map (fun c => c.data.y),
      ∀ v ∈ (a ++ b).map (fun c => c.data.y), |u - v| ≤ 3 := by
    intro u hu v hv
    obtain ⟨cu, hcu, hcueq⟩ := List.mem_map.mp hu
    obtain ⟨cv, hcv, hcveq⟩ := List.mem_map.mp hv
    rw [← hcueq, ← hcveq]
    exact hclY cu hcu cv hcv
  have hsprX := spread_bounds ((a ++ b).map (fun c => c.data.x)) hmapxne hclXQ
  have hsprY := spread_bounds ((a ++ b).map (fun c => c.data.y)) hmapyne hclYQ
  have hsprXeq : coreXSpread ((List.enumFrom 0 a) ++ (List.enumFrom (a.length + 1) b)) =
      maxQ ((a ++ b).map (fun c => c.data.x)) -
      minQ ((a ++ b).map (fun c => c.data.x)) := by
    rw [coreXSpread, hcoreMapX]
  have hsprYeq : coreYSpread ((List.enumFrom 0 a) ++ (List.enumFrom (a.length + 1) b)) =
      maxQ ((a ++ b).map (fun c => c.data.y)) -
      minQ ((a ++ b).map (fun c => c.data.y)) := by
    rw [coreYSpread, hcoreMapY]
  have hsurv : groupSurvivor (List.enumFrom 0 a ++ (a.length, out) :: List.enumFrom (a.length + 1) b) = (a.length, out) := by
    rw [groupSurvivor]
    simp only [hpartG]
    rw [List.find?_cons_of_pos _ (by simp [hgrad])]
  have hMA : ∀ q ∈ (List.enumFrom 0 a),
      (decide (q.1 ≠ (((a.length, out) : GPair)).1)) = true := by
    intro q hq
    obtain ⟨hb1, hb2⟩ := fst_bound_of_mem_enumFrom hq
    simp only [decide_eq_true_eq]
    show q.1 ≠ a.length
    omega
  have hMB : ∀ q ∈ (List.enumFrom (a.length + 1) b),
      (decide (q.1 ≠ (((a.length, out) : GPair)).1)) = true := by
    intro q hq
    obtain ⟨hb1, hb2⟩ := fst_bound_of_mem_enumFrom hq
    simp only [decide_eq_true_eq]
    show q.1 ≠ a.length
    omega
  have hMM : (decide ((((a.length, out) : GPair)).1 ≠ (((a.length, out) : GPair)).1)) =
      false := by
    simp
  have hmarked : groupMarked (List.enumFrom 0 a ++ (a.length, out) :: List.enumFrom (a.length + 1) b) = (List.range' 0 a.length ++ List.range' (a.length + 1) b.length) := by
    rw [groupMarked, hsurv]
    obtain ⟨hf1, hf2⟩ := filter_split_mid
      (fun p : GPair => decide (p.1 ≠ (((a.length, out) : GPair)).1))
      (List.enumFrom 0 a) (List.enumFrom (a.length + 1) b)
      (a.length, out) hMA hMB hMM
    rw [hf1, List.map_append,
      show (fun p : GPair => p.1) = (Prod.fst : GPair → ℕ) from rfl,
      List.enumFrom_map_fst, List.enumFrom_map_fst]
  have hth : groupThickness ((List.enumFrom 0 a) ++ (List.enumFrom (a.length + 1) b)) = claimedThickness (a ++ b) := by
    rw [groupThickness, claimedThickness, coreSpread, hsprXeq, hsprYeq]
    exact thickness_case _ (le_trans hsprX.1 (le_max_left _ _))
  have hx8 : coreXSpread ((List.enumFrom 0 a) ++ (List.enumFrom (a.length + 1) b)) ≤ 3 := by
    rw [hsprXeq]
    exact hsprX.2
  have hy8 : coreYSpread ((List.enumFrom 0 a) ++ (List.enumFrom (a.length + 1) b)) ≤ 3 := by
    rw [hsprYeq]
    exact hsprY.2
  have hpg : processGroup (List.enumFrom 0 a ++ (a.length, out) :: List.enumFrom (a.length + 1) b) = some
      { marked := (List.range' 0 a.length ++ List.range' (a.length + 1) b.length),
        survivor := a.length,
        thickness := claimedThickness (a ++ b),
        strokeColor := groupStrokeColor (List.enumFrom 0 a ++ (a.length, out) :: List.enumFrom (a.length + 1) b) } := by
    rw [processGroup]
    rw [if_neg (by rw [hGlen]; norm_num)]
    simp only [hpartG]
    rw [if_neg (by
      simp only [List.length_append, List.enumFrom_length]
      omega)]
    rw [if_neg (by
      push_neg
      exact ⟨by linarith, by linarith⟩)]
    rw [hmarked, hsurv, hth]
  have hcsne : a ++ out :: b ≠ [] := by
    intro h
    have h2 := congrArg List.length h
    simp [List.length_append] at h2
  have hbg : buildGroups (a ++ out :: b) = [(k, (List.enumFrom 0 a ++ (a.length, out) :: List.enumFrom (a.length + 1) b))] := by
    rw [buildGroups_const k (a ++ out :: b) hcsne hkey, hgdec]
  have hdma : dedupMarkedAnnots (a ++ out :: b) =
      ((List.range' 0 a.length ++ List.range' (a.length + 1) b.length),
       [(a.length, claimedThickness (a ++ b), groupStrokeColor (List.enumFrom 0 a ++ (a.length, out) :: List.enumFrom (a.length + 1) b))]) := by
    rw [dedupMarkedAnnots, hbg]
    simp only [List.foldl_cons, List.foldl_nil]
    rw [hpg]
    rfl
  have hKA : ∀ q ∈ (List.enumFrom 0 a),
      (decide (q.1 ∉ (List.range' 0 a.length ++ List.range' (a.length + 1) b.length) ∧ q.2.data.isStrokeDuplicate = false)) = false := by
    intro q hq
    obtain ⟨hb1, hb2⟩ := fst_bound_of_mem_enumFrom hq
    simp only [decide_eq_false_iff_not]
    intro hcontra
    exact hcontra.1 (List.mem_append_left _
      (List.mem_range'_1.mpr ⟨Nat.zero_le _, by omega⟩))
  have hKB : ∀ q ∈ (List.enumFrom (a.length + 1) b),
      (decide (q.1 ∉ (List.range' 0 a.length ++ List.range' (a.length + 1) b.length) ∧ q.2.data.isStrokeDuplicate = false)) = false := by
    intro q hq
    obtain ⟨hb1, hb2⟩ := fst_bound_of_mem_enumFrom hq
    simp only [decide_eq_false_iff_not]
    intro hcontra
    refine hcontra.1 (List.mem_append_right _ (List.mem_range'_1.mpr ⟨by omega, ?_⟩))
    omega
  have hKM : (decide ((((a.length, out) : GPair)).1 ∉ (List.range' 0 a.length ++ List.range' (a.length + 1) b.length) ∧
      (((a.length, out) : GPair)).2.data.isStrokeDuplicate = false)) = true := by
    simp only [decide_eq_true_eq]
    constructor
    · intro hcontra
      rcases List.mem_append.mp hcontra with h | h
      · have h2 := List.mem_range'_1.mp h
        omega
      · have h2 := List.mem_range'_1.mp h
        omega
    · exact hunmarked out (List.mem_append_right a (List.mem_cons_self out b))
  have hkeep : dedupKeep (a ++ out :: b) =
      [annotateSurvivor out (claimedThickness (a ++ b)) (groupStrokeColor (List.enumFrom 0 a ++ (a.length, out) :: List.enumFrom (a.length + 1) b))] := by
    rw [dedupKeep, hgdec, hdma]
    rw [filter_mid_only
      (fun p : GPair => decide (p.1 ∉ (List.range' 0 a.length ++ List.range' (a.length + 1) b.length) ∧ p.2.data.isStrokeDuplicate = false))
      (List.enumFrom 0 a) (List.enumFrom (a.length + 1) b) (a.length, out) hKA hKB hKM]
    rw [List.map_cons, List.map_nil]
    rw [List.find?_cons_of_pos _ (by simp)]
  have hlevel : dedupLevel (a ++ out :: b) =
      ([annotateSurvivor out (claimedThickness (a ++ b)) (groupStrokeColor (List.enumFrom 0 a ++ (a.length, out) :: List.enumFrom (a.length + 1) b))], 8) := by
    rw [dedupLevel, if_neg (by simp)]
    rw [hkeep, hdma]
    simp only [Prod.mk.injEq]
    refine ⟨trivial, ?_⟩
    simp only [List.length_append, List.length_range']
    omega
  have hchild : dedupChildren
      [annotateSurvivor out (claimedThickness (a ++ b)) (groupStrokeColor (List.enumFrom 0 a ++ (a.length, out) :: List.enumFrom (a.length + 1) b))] =
      ([annotateSurvivor out (claimedThickness (a ++ b)) (groupStrokeColor (List.enumFrom 0 a ++ (a.length, out) :: List.enumFrom (a.length + 1) b))], 0) := by
    cases out with
    | mk od ocs =>
      rw [FNode.children_mk] at hleaf
      subst hleaf
      exact dedupChildren_annot_leaf od _ _
  have hmain : deduplicateTextStrokes (FNode.mk pd (a ++ out :: b)) =
      (FNode.mk pd [annotateSurvivor out (claimedThickness (a ++ b))
        (groupStrokeColor (List.enumFrom 0 a ++ (a.length, out) :: List.enumFrom (a.length + 1) b))], 8) := by
    rw [deduplicateTextStrokes]
    rw [hlevel]
    rw [hchild]
    rfl
  refine ⟨by rw [hmain], ⟨groupStrokeColor (List.enumFrom 0 a ++ (a.length, out) :: List.enumFrom (a.length + 1) b), by rw [hmain]⟩⟩



/-- Witness for the C6 theorem: 8 copies of `c6CoreNode` at the origin plus
the gradient outlier `c6OutNode` 20px to the right. -/
theorem deduplicateTextStrokes_collapses_group_witness :
    (∀ c ∈ List.replicate 8 c6CoreNode ++ c6OutNode :: ([] : List FNode),
      groupKey c.data = some ("WIN", 16, "Inter")) ∧
    hasGradientFill c6OutNode = true ∧
    (deduplicateTextStrokes (FNode.mk NData.default
      (List.replicate 8 c6CoreNode ++ c6OutNode :: []))).2 = 8 ∧
    ∃ col, (deduplicateTextStrokes (FNode.mk NData.default
      (List.replicate 8 c6CoreNode ++ c6OutNode :: []))).1 =
      FNode.mk NData.default [annotateSurvivor c6OutNode
        (claimedThickness (List.replicate 8 c6CoreNode ++ [])) col] := by
  have hkeyW : ∀ c ∈ List.replicate 8 c6CoreNode ++ c6OutNode :: ([] : List FNode),
      groupKey c.data = some ("WIN", 16, "Inter") := by
    intro c hc
    rcases List.mem_append.mp hc with h | h
    · rw [(List.mem_replicate.mp h).2]
      rfl
    · rw [List.mem_singleton.mp h]
      rfl
  have hunmarkedW : ∀ c ∈ List.replicate 8 c6CoreNode ++ c6OutNode :: ([] : List FNode),
      c.data.isStrokeDuplicate = false := by
    intro c hc
    rcases List.mem_append.mp hc with h | h
    · rw [(List.mem_replicate.mp h).2]
      rfl
    · rw [List.mem_singleton.mp h]
      rfl
  have hclXW : ∀ c ∈ List.replicate 8 c6CoreNode ++ ([] : List FNode),
      ∀ c2 ∈ List.replicate 8 c6CoreNode ++ ([] : List FNode),
      |c.data.x - c2.data.x| ≤ 3 := by
    intro c hc c2 hc2
    rw [List.append_nil] at hc hc2
    rw [(List.mem_replicate.mp hc).2, (List.mem_replicate.mp hc2).2]
    simp
  have hclYW : ∀ c ∈ List.replicate 8 c6CoreNode ++ ([] : List FNode),
      ∀ c2 ∈ List.replicate 8 c6CoreNode ++ ([] : List FNode),
      |c.data.y - c2.data.y| ≤ 3 := by
    intro c hc c2 hc2
    rw [List.append_nil] at hc hc2
    rw [(List.mem_replicate.mp hc).2, (List.mem_replicate.mp hc2).2]
    simp
  have hfarW : ∀ c ∈ List.replicate 8 c6CoreNode ++ ([] : List FNode),
      20 ≤ |c6OutNode.data.x - c.data.x| := by
    intro c hc
    rw [List.append_nil] at hc
    rw [(List.mem_replicate.mp hc).2]
    norm_num [c6OutNode, c6CoreNode, NData.default]
  have h := deduplicateTextStrokes_collapses_group NData.default
    (List.replicate 8 c6CoreNode) [] c6OutNode ("WIN", 16, "Inter")
    (by simp) hkeyW hunmarkedW rfl hclXW hclYW (Or.inl hfarW) rfl
  exact ⟨hkeyW, rfl, h.1, h.2⟩


/-- While a hash has no cache entry and no exported raw content, the
resolution loop cannot succeed: every run containing it ends in a fatal
error. -/
theorem resolveLoop_missing_errors (upload exported : String → Option String)
    (h : String) (hexp : exported h = none) :
    ∀ (hs : List String) (cache : ImageCache) (root : FNode),
      h ∈ hs → objGet cache h = none →
      ∃ e, (resolveLoop upload exported hs cache root).2 = Except.error e := by
  intro hs
  induction hs with
  | nil =>
    intro cache root hmem hcache
    exact absurd hmem (List.not_mem_nil h)
  | cons h2 rest ih =>
    intro cache root hmem hcache
    rw [resolveLoop]
    cases hcg : objGet cache h2 with
    | some assetId =>
      have hne : h2 ≠ h := by
        intro heq
        rw [heq, hcache] at hcg
        cases hcg
      have hmem2 : h ∈ rest := by
        rcases List.mem_cons.mp hmem with he | hr
        · exact absurd he.symm hne
        · exact hr
      obtain ⟨e, he⟩ := ih cache (applyResolvedId root h2 assetId) hmem2 hcache
      exact ⟨e, he⟩
    | none =>
      cases hce : exported h2 with
      | none => exact ⟨.missingData h2, rfl⟩
      | some dat =>
        cases hcu : upload h2 with
        | none => exact ⟨.uploadFailed h2, rfl⟩
        | some assetId =>
          have hne : h2 ≠ h := by
            intro heq
            rw [heq, hexp] at hce
            cases hce
          have hmem2 : h ∈ rest := by
            rcases List.mem_cons.mp hmem with he | hr
            · exact absurd he.symm hne
            · exact hr
          have hcache2 : objGet (objSet cache h2 assetId) h = none := by
            rw [objGet_objSet_ne cache h2 h assetId (Ne.symm hne)]
            exact hcache
          obtain ⟨e, he⟩ := ih (objSet cache h2 assetId)
            (applyResolvedId root h2 assetId) hmem2 hcache2
          exact ⟨e, he⟩

/-- **C4**: when some hash of the manifest's unresolved-content list has no
persistent-cache entry and no exported raw content, the pipeline driver with
image resolution requested ends in a fatal error — the assembler never runs
and no output is produced, whatever the upload oracle answers. -/
theorem processManifest_missing_data_aborts
    (assemble : Manifest → String) (upload exported : String → Option String)
    (cache0 : ImageCache) (opts : ProcessOptions) (m : Manifest) (h : String)
    (hflag : opts.resolveImages = true)
    (hmem : h ∈ m.unresolvedImages)
    (hcache : objGet cache0 h = none)
    (hexp : exported h = none) :
    ∃ e, (processManifest assemble upload exported cache0 opts m).2 =
      Except.error e := by
  have hne : m.unresolvedImages ≠ [] := by
    intro hnil
    rw [hnil] at hmem
    exact absurd hmem (List.not_mem_nil h)
  have hresolve : ∃ e, (resolveImages upload exported cache0
      { root := if opts.skipDedup then m.root else (deduplicateTextStrokes m.root).1,
        unresolvedImages := m.unresolvedImages }).2 = Except.error e := by
    rw [resolveImages]
    rw [if_neg (by simpa [List.isEmpty_iff] using hne)]
    exact resolveLoop_missing_errors upload exported h hexp m.unresolvedImages cache0 _
      hmem hcache
  obtain ⟨e, he⟩ := hresolve
  rw [processManifest]
  simp only []
  rw [if_pos (by simp [hflag, List.isEmpty_iff, hne])]
  cases hres : resolveImages upload exported cache0
      { root := if opts.skipDedup then m.root else (deduplicateTextStrokes m.root).1,
        unresolvedImages := m.unresolvedImages } with
  | mk evs r =>
    rw [hres] at he
    cases r with
    | error e2 => exact ⟨e2, rfl⟩
    | ok pair => cases he


/-- Witness for the C4 theorem: `crashManifest` declares `hash_a` unresolved,
the cache is empty and no exported content exists, so the driver aborts. -/
theorem processManifest_missing_data_aborts_witness :
    "hash_a" ∈ crashManifest.unresolvedImages ∧
    objGet ([] : ImageCache) "hash_a" = none ∧
    noExported "hash_a" = none ∧
    ∃ e, (processManifest demoAssemble alwaysUpload noExported [] c4Opts
      crashManifest).2 = Except.error e := by
  refine ⟨by simp [crashManifest], rfl, rfl, ?_⟩
  exact processManifest_missing_data_aborts demoAssemble alwaysUpload noExported []
    c4Opts crashManifest "hash_a" rfl (by simp [crashManifest]) rfl rfl

end FigmaForge
